import Mathlib

/-!
Verification development for the Engauge Digitizer grid healer
(`src/Grid/GridHealer.cpp`).

The C++ healer owns a 2D buffer `m_pixels` of integer pixel states indexed
as `m_pixels[row][col]`, plus two `QMap`s from group number to centroid and
to a representative ("anchor") pixel.  The embedding below mirrors that
code: grids are total functions `Int → Int → PixelState` together with the
dimensions, doubles are modelled by `ℚ`, the recursive flood fill gets an
explicit fuel argument (the C++ recursion terminates because every call
consumes one Adjacent cell; fuel `rows * cols` is always enough, which is
proved below), and `QImage::setPixel` is modelled as a boolean "painted
black" predicate on the image.
-/

namespace GridHealerSpec

/-- Pixel states.  The C++ code stores both the fixed `PIXEL_STATE_*` enum
values and dynamically assigned boundary-group numbers in one integer field
(`PixelState` enum from a header outside the excerpt, with the invariant
`NUM_PIXEL_STATES < BOUNDARY_GROUP_FIRST` keeping the two ranges disjoint).
Modelled as a tagged variant, with `grouped gid` carrying the group number. -/
inductive PixelState where
  | background
  | foreground
  | adjacent
  | removed
  | healed
  | grouped (gid : Nat)
deriving DecidableEq, Repr

/-- Group numbers start at this value (GridHealer.cpp line 16). -/
def BOUNDARY_GROUP_FIRST : Nat := 100

/-- The pixel buffer `m_pixels`: a `rows × cols` array of states, modelled
as a total function on `Int × Int` (row, col); only in-bounds entries are
meaningful and all code paths below index in bounds. -/
structure Grid where
  rows : Nat
  cols : Nat
  state : Int → Int → PixelState

/-- Bounds test matching `0 <= r && r < m_pixels.count()` and
`0 <= c && c < m_pixels[0].count()`. -/
def inGrid (g : Grid) (row col : Int) : Prop :=
  0 ≤ row ∧ row < (g.rows : Int) ∧ 0 ≤ col ∧ col < (g.cols : Int)

instance (g : Grid) (row col : Int) : Decidable (inGrid g row col) := by
  unfold inGrid; infer_instance

/-- Assignment `m_pixels[row][col] = v`. -/
def setCell (g : Grid) (row col : Int) (v : PixelState) : Grid :=
  { g with state := fun r c => if r = row ∧ c = col then v else g.state r c }

/-- The 3×3 neighborhood offsets in source order: `rowOffset` in -1..1
outer, `colOffset` in -1..1 inner (the center (0,0) is included in the C++
loops as well; the state tests make it a no-op where relevant). -/
def offsets : List (Int × Int) :=
  [(-1, -1), (-1, 0), (-1, 1), (0, -1), (0, 0), (0, 1), (1, -1), (1, 0), (1, 1)]

/-- All in-bounds cells, as a finite set of (row, col) pairs. -/
def cellFinset (g : Grid) : Finset (Int × Int) :=
  Finset.Icc 0 ((g.rows : Int) - 1) ×ˢ Finset.Icc 0 ((g.cols : Int) - 1)

/-- Number of in-bounds cells currently in state Adjacent. -/
def adjCount (g : Grid) : Nat :=
  ((cellFinset g).filter (fun p => g.state p.1 p.2 = PixelState.adjacent)).card

/-- State threaded through `recursiveSearchForAdjacentPixels`: the evolving
grid, the accumulators `centroidCount`, `rowCentroidSum`, `colCentroidSum`,
and an `ok` flag recording that no `ENGAUGE_ASSERT` fired and the fuel
never ran out. -/
structure FillState where
  grid : Grid
  centroidCount : Nat
  rowCentroidSum : ℚ
  colCentroidSum : ℚ
  ok : Bool

/-- GridHealer::recursiveSearchForAdjacentPixels (lines 168-205).  On entry
the cell must be Adjacent (`ENGAUGE_ASSERT`, modelled by `ok := false` on
violation); the cell's coordinates are merged into the centroid
accumulators, the cell is recolored to the boundary group, and the fill
recurses into every in-bounds 3×3 neighbor that is currently Adjacent.
The C++ recursion needs no fuel; here fuel decreases on each call and
exhaustion is flagged through `ok := false` (it is proved below that fuel
`adjCount` suffices, so exhaustion is unreachable from the callers). -/
def floodFill : Nat → Nat → FillState → Int → Int → FillState
  | 0, _, st, _, _ => { st with ok := false }
  | fuel + 1, boundaryGroup, st, row, col =>
    if st.grid.state row col = PixelState.adjacent then
      let st0 : FillState :=
        { grid := setCell st.grid row col (PixelState.grouped boundaryGroup)
          centroidCount := st.centroidCount + 1
          rowCentroidSum := st.rowCentroidSum + (row : ℚ)
          colCentroidSum := st.colCentroidSum + (col : ℚ)
          ok := st.ok }
      offsets.foldl
        (fun s off =>
          let rowNeighbor := row + off.1
          let colNeighbor := col + off.2
          if inGrid s.grid rowNeighbor colNeighbor ∧
              s.grid.state rowNeighbor colNeighbor = PixelState.adjacent then
            floodFill fuel boundaryGroup s rowNeighbor colNeighbor
          else s)
        st0
    else { st with ok := false }

/-- One record per boundary group.  The C++ code keeps two `QMap`s keyed by
the group number (`m_groupNumberToCentroid`, `m_groupNumberToPixel`),
always populated together; since the keys are allocated in increasing
order, `QMap` iteration order (ascending key) coincides with insertion
order, so both maps are modelled as one insertion-ordered list.
`centroid` is `QPointF (rowCentroidSum/count, colCentroidSum/count)` and
`pixel` is `QPointF (row, col)` of the scan cell that started the fill. -/
structure RegionInfo where
  boundaryGroup : Nat
  centroid : ℚ × ℚ
  pixel : Int × Int
deriving DecidableEq, Repr

/-- The mutable state of one GridHealer instance: `m_pixels`,
`m_boundaryGroupNext`, the group maps, and the assertion flag. -/
structure HealerState where
  pixels : Grid
  boundaryGroupNext : Nat
  regions : List RegionInfo
  ok : Bool

/-- The row-major scan order of GridHealer::groupContiguousAdjacentPixels. -/
def cellsRowMajor (rows cols : Nat) : List (Int × Int) :=
  (List.range rows).flatMap
    (fun (r : Nat) => (List.range cols).map (fun (c : Nat) => ((r : Int), (c : Int))))

/-- Body of the double loop of GridHealer::groupContiguousAdjacentPixels
(lines 129-157) for one scan cell: if the cell is still Adjacent, flood
fill from it, and if the resulting count is positive record the centroid
and the representative pixel under the next group number and advance it. -/
def scanStep (hs : HealerState) (cell : Int × Int) : HealerState :=
  if hs.pixels.state cell.1 cell.2 = PixelState.adjacent then
    let r := floodFill (hs.pixels.rows * hs.pixels.cols) hs.boundaryGroupNext
      { grid := hs.pixels, centroidCount := 0, rowCentroidSum := 0, colCentroidSum := 0,
        ok := hs.ok }
      cell.1 cell.2
    if 0 < r.centroidCount then
      { pixels := r.grid
        boundaryGroupNext := hs.boundaryGroupNext + 1
        regions := hs.regions ++
          [{ boundaryGroup := hs.boundaryGroupNext
             centroid := (r.rowCentroidSum / (r.centroidCount : ℚ),
                          r.colCentroidSum / (r.centroidCount : ℚ))
             pixel := cell }]
        ok := r.ok }
    else
      { pixels := r.grid, boundaryGroupNext := hs.boundaryGroupNext,
        regions := hs.regions, ok := r.ok }
  else hs

/-- GridHealer::groupContiguousAdjacentPixels (lines 125-158). -/
def groupContiguousAdjacentPixels (hs : HealerState) : HealerState :=
  (cellsRowMajor hs.pixels.rows hs.pixels.cols).foldl scanStep hs

/-- The output image, reduced to the one observation the healer makes on
it: whether `setPixel (QPoint (xCol, yRow), Qt::black)` has been applied
at a coordinate. -/
def Image : Type := (Int × Int) → Bool

/-- QImage::setPixel with Qt::black, at `QPoint (xCol, yRow)`. -/
def setPixelBlack (img : Image) (xCol yRow : Int) : Image :=
  fun p => if p = (xCol, yRow) then true else img p

/-- The C cast `(int) q` for a double `q`: truncation toward zero. -/
def cIntOfRat (q : ℚ) : Int := if q < 0 then ⌈q⌉ else ⌊q⌋

/-- The step count of the line-drawing block (GridHealer.cpp line 78):
`count = 1 + qMax (qAbs (from.x - to.x), qAbs (from.y - to.y))` over the
two anchor `QPointF`s, whose `x` component is the row and whose `y`
component is the col, both integral. -/
def lineCount (pixelPointFrom pixelPointTo : Int × Int) : Int :=
  1 + max |pixelPointFrom.1 - pixelPointTo.1| |pixelPointFrom.2 - pixelPointTo.2|

/-- The (yRow, xCol) pixel written at step `index` of the line-drawing
loop (lines 85-87): `s = index / (count - 1)`,
`xCol = (int) (0.5 + (1-s)*from.y + s*to.y)` and
`yRow = (int) (0.5 + (1-s)*from.x + s*to.x)`. -/
def linePixel (pixelPointFrom pixelPointTo : Int × Int) (index : Nat) : Int × Int :=
  let s : ℚ := (index : ℚ) / ((lineCount pixelPointFrom pixelPointTo : ℚ) - 1)
  (cIntOfRat (1/2 + (1 - s) * (pixelPointFrom.1 : ℚ) + s * (pixelPointTo.1 : ℚ)),
   cIntOfRat (1/2 + (1 - s) * (pixelPointFrom.2 : ℚ) + s * (pixelPointTo.2 : ℚ)))

/-- One iteration of the line-drawing loop (lines 82-94): mark the pixel
Healed in the grid (`m_pixels[yRow][xCol] = PIXEL_STATE_HEALED`) and paint
it black in the image (`setPixel (QPoint (xCol, yRow), Qt::black)`). -/
def lineStep (pixelPointFrom pixelPointTo : Int × Int) (gi2 : Grid × Image)
    (index : Nat) : Grid × Image :=
  let yRow := (linePixel pixelPointFrom pixelPointTo index).1
  let xCol := (linePixel pixelPointFrom pixelPointTo index).2
  (setCell gi2.1 yRow xCol PixelState.healed, setPixelBlack gi2.2 xCol yRow)

/-- The line-drawing block of GridHealer::connectCloseGroups (lines
78-94): when `count > 1`, run the loop body for each index in
0..count-1. -/
def drawLine (pixelPointFrom pixelPointTo : Int × Int) (gi : Grid × Image) : Grid × Image :=
  if 1 < lineCount pixelPointFrom pixelPointTo then
    (List.range (lineCount pixelPointFrom pixelPointTo).toNat).foldl
      (lineStep pixelPointFrom pixelPointTo) gi
  else gi

/-- Inner loop of GridHealer::connectCloseGroups: `itrTo` runs over the
entries strictly after `itrFrom`; a pair whose centroid separation squared
is strictly below the threshold gets a line between its anchor pixels. -/
def connectInner (closeDistanceSquared : ℚ) (rFrom : RegionInfo) :
    List RegionInfo → Grid × Image → Grid × Image
  | [], gi => gi
  | rTo :: rest, gi =>
    let separation : ℚ × ℚ :=
      (rFrom.centroid.1 - rTo.centroid.1, rFrom.centroid.2 - rTo.centroid.2)
    let separationMagnitudeSquared :=
      separation.1 * separation.1 + separation.2 * separation.2
    connectInner closeDistanceSquared rFrom rest
      (if separationMagnitudeSquared < closeDistanceSquared then
        drawLine rFrom.pixel rTo.pixel gi
      else gi)

/-- Outer loop of GridHealer::connectCloseGroups. -/
def connectOuter (closeDistanceSquared : ℚ) :
    List RegionInfo → Grid × Image → Grid × Image
  | [], gi => gi
  | rFrom :: rest, gi =>
    connectOuter closeDistanceSquared rest (connectInner closeDistanceSquared rFrom rest gi)

/-- GridHealer::connectCloseGroups (lines 44-99): squares the configured
close distance once, then runs the N*(N-1)/2 pair search. -/
def connectCloseGroups (closeDistance : ℚ) (regions : List RegionInfo)
    (gi : Grid × Image) : Grid × Image :=
  connectOuter (closeDistance * closeDistance) regions gi

/-- GridHealer::heal (lines 160-166). -/
def heal (closeDistance : ℚ) (hs : HealerState) (imageToHeal : Image) :
    HealerState × Image :=
  let hs2 := groupContiguousAdjacentPixels hs
  let gi := connectCloseGroups closeDistance hs2.regions (hs2.pixels, imageToHeal)
  ({ hs2 with pixels := gi.1 }, gi.2)

/-- Body of the neighbor loops of GridHealer::erasePixel for one offset:
if the neighbor is in bounds and Foreground, recolor it Adjacent. -/
def eraseStep (xCol yRow : Int) (g2 : Grid) (off : Int × Int) : Grid :=
  let rowSearch := yRow + off.1
  let colSearch := xCol + off.2
  if inGrid g2 rowSearch colSearch ∧
      g2.state rowSearch colSearch = PixelState.foreground then
    setCell g2 rowSearch colSearch PixelState.adjacent
  else g2

/-- GridHealer::erasePixel (lines 101-123): mark (yRow, xCol) Removed,
then recolor every in-bounds 3×3 neighbor that is Foreground to Adjacent. -/
def erasePixel (g : Grid) (xCol yRow : Int) : Grid :=
  offsets.foldl (eraseStep xCol yRow) (setCell g yRow xCol PixelState.removed)

/-- The (row, col) cells whose state `erasePixel` reads or writes, in
source order: first the write to the target, then each 3×3 neighbor that
passes the bounds checks (the dimensions never change during the call, so
the bounds may be read off the initial grid). -/
def erasePixelAccesses (g : Grid) (xCol yRow : Int) : List (Int × Int) :=
  (yRow, xCol) :: offsets.filterMap
    (fun off =>
      let rowSearch := yRow + off.1
      let colSearch := xCol + off.2
      if inGrid g rowSearch colSearch then some (rowSearch, colSearch) else none)

/-- The GridHealer constructor (lines 18-42): every pixel whose gray level
exceeds 128 becomes Background, every other pixel Foreground.  The source
image is abstracted by its gray level `qGrayAt x y` for
`imageBefore.pixel (col, row)`. -/
def gridFromImage (height width : Nat) (qGrayAt : Int → Int → Nat) : Grid :=
  { rows := height
    cols := width
    state := fun row col =>
      if 128 < qGrayAt col row then PixelState.background else PixelState.foreground }

/-! ## Basic lemmas about cells and updates -/

theorem setCell_rows (g : Grid) (row col : Int) (v : PixelState) :
    (setCell g row col v).rows = g.rows := rfl

theorem setCell_cols (g : Grid) (row col : Int) (v : PixelState) :
    (setCell g row col v).cols = g.cols := rfl

theorem setCell_state_self (g : Grid) (row col : Int) (v : PixelState) :
    (setCell g row col v).state row col = v := by
  simp [setCell]

theorem setCell_state_of_ne (g : Grid) (row col : Int) (v : PixelState)
    (r c : Int) (h : ¬(r = row ∧ c = col)) :
    (setCell g row col v).state r c = g.state r c := by
  simp [setCell, h]

theorem inGrid_setCell (g : Grid) (row col : Int) (v : PixelState) (r c : Int) :
    inGrid (setCell g row col v) r c ↔ inGrid g r c := Iff.rfl

theorem inGrid_of_dims {g h : Grid} (hr : g.rows = h.rows) (hc : g.cols = h.cols)
    {r c : Int} : inGrid g r c ↔ inGrid h r c := by
  simp [inGrid, hr, hc]

/-! ## C7: pixel classification at construction -/

/-- C7.  At construction, every grid cell is Background exactly when the
pixel's gray level strictly exceeds 128, and Foreground otherwise; no
other state is produced. -/
theorem claim_C7_construction (height width : Nat) (qGrayAt : Int → Int → Nat)
    (row col : Int) :
    ((gridFromImage height width qGrayAt).state row col =
        (if 128 < qGrayAt col row then PixelState.background else PixelState.foreground)) ∧
      ((gridFromImage height width qGrayAt).state row col = PixelState.background ↔
        128 < qGrayAt col row) ∧
      ((gridFromImage height width qGrayAt).state row col = PixelState.background ∨
        (gridFromImage height width qGrayAt).state row col = PixelState.foreground) := by
  refine ⟨rfl, ?_, ?_⟩ <;> by_cases h : 128 < qGrayAt col row <;>
    simp [gridFromImage, h]

/-! ## The eraser: characterization of the neighbor fold -/

/-- The cell touched by one offset of the eraser loop. -/
def eraseCellOf (xCol yRow : Int) (off : Int × Int) : Int × Int :=
  (yRow + off.1, xCol + off.2)

theorem eraseCellOf_injective (xCol yRow : Int) {a b : Int × Int}
    (h : eraseCellOf xCol yRow a = eraseCellOf xCol yRow b) : a = b := by
  have h1 : yRow + a.1 = yRow + b.1 := congrArg Prod.fst h
  have h2 : xCol + a.2 = xCol + b.2 := congrArg Prod.snd h
  have := add_left_cancel h1
  have := add_left_cancel h2
  exact Prod.ext (by omega) (by omega)

theorem eraseStep_rows (xCol yRow : Int) (g2 : Grid) (off : Int × Int) :
    (eraseStep xCol yRow g2 off).rows = g2.rows := by
  simp only [eraseStep]; split <;> rfl

theorem eraseStep_cols (xCol yRow : Int) (g2 : Grid) (off : Int × Int) :
    (eraseStep xCol yRow g2 off).cols = g2.cols := by
  simp only [eraseStep]; split <;> rfl

/-- Full pointwise characterization of the eraser's neighbor fold, for any
duplicate-free offset list: a cell ends up Adjacent exactly when it is the
target of a listed offset, lies in bounds, and was Foreground in the fold's
start grid; every other cell keeps its state. -/
theorem eraseFold_state (xCol yRow : Int) (l : List (Int × Int)) (h : Grid)
    (hpw : l.Pairwise (fun a b => a ≠ b)) (p : Int × Int) :
    (l.foldl (eraseStep xCol yRow) h).state p.1 p.2 =
      if (∃ off ∈ l, p = eraseCellOf xCol yRow off) ∧ inGrid h p.1 p.2 ∧
          h.state p.1 p.2 = PixelState.foreground
      then PixelState.adjacent else h.state p.1 p.2 := by
  induction l generalizing h with
  | nil => simp
  | cons off l ih =>
    have hpw' : l.Pairwise (fun a b => a ≠ b) := (List.pairwise_cons.mp hpw).2
    have hne : ∀ b ∈ l, off ≠ b := (List.pairwise_cons.mp hpw).1
    have hdr : (eraseStep xCol yRow h off).rows = h.rows := eraseStep_rows _ _ _ _
    have hdc : (eraseStep xCol yRow h off).cols = h.cols := eraseStep_cols _ _ _ _
    rw [List.foldl_cons, ih _ hpw']
    by_cases hp : p = eraseCellOf xCol yRow off
    · -- the cell touched by the head offset is touched by no later offset
      have hnotl : ¬∃ off2 ∈ l, p = eraseCellOf xCol yRow off2 := by
        rintro ⟨off2, hoff2, hcell⟩
        exact hne off2 hoff2 (eraseCellOf_injective xCol yRow (hp ▸ hcell))
      rw [if_neg (by rintro ⟨hex, -⟩; exact hnotl hex)]
      subst hp
      simp only [eraseStep, eraseCellOf]
      by_cases hg : inGrid h (yRow + off.1) (xCol + off.2) ∧
          h.state (yRow + off.1) (xCol + off.2) = PixelState.foreground
      · rw [if_pos hg, if_pos ⟨⟨off, by simp [eraseCellOf]⟩, hg.1, hg.2⟩]
        exact setCell_state_self _ _ _ _
      · rw [if_neg hg, if_neg (by rintro ⟨-, h1, h2⟩; exact hg ⟨h1, h2⟩)]
    · -- a cell not touched by the head offset: head step leaves it alone
      have hstep : (eraseStep xCol yRow h off).state p.1 p.2 = h.state p.1 p.2 := by
        simp only [eraseStep]
        split
        · refine setCell_state_of_ne _ _ _ _ _ _ ?_
          rintro ⟨h1, h2⟩
          exact hp (Prod.ext h1 h2)
        · rfl
      have hgr : inGrid (eraseStep xCol yRow h off) p.1 p.2 ↔ inGrid h p.1 p.2 :=
        inGrid_of_dims hdr hdc
      rw [hstep]
      by_cases hex : ∃ off2 ∈ l, p = eraseCellOf xCol yRow off2
      · by_cases hg : inGrid h p.1 p.2 ∧ h.state p.1 p.2 = PixelState.foreground
        · rw [if_pos ⟨hex, hgr.mpr hg.1, hg.2⟩,
            if_pos ⟨⟨hex.choose, List.mem_cons_of_mem _ hex.choose_spec.1,
              hex.choose_spec.2⟩, hg.1, hg.2⟩]
        · rw [if_neg (by rintro ⟨-, h1, h2⟩; exact hg ⟨hgr.mp h1, h2⟩),
            if_neg (by rintro ⟨-, h1, h2⟩; exact hg ⟨h1, h2⟩)]
      · rw [if_neg (by rintro ⟨hex2, -⟩; exact hex hex2),
          if_neg (by
            rintro ⟨⟨off2, hmem, hcell⟩, -⟩
            rcases List.mem_cons.mp hmem with rfl | hmem2
            · exact hp hcell
            · exact hex ⟨off2, hmem2, hcell⟩)]

theorem offsets_pairwise : offsets.Pairwise (fun a b => a ≠ b) := by decide

theorem eraseFold_rows (xCol yRow : Int) (l : List (Int × Int)) (h : Grid) :
    (l.foldl (eraseStep xCol yRow) h).rows = h.rows := by
  induction l generalizing h with
  | nil => rfl
  | cons off l ih => rw [List.foldl_cons, ih]; exact eraseStep_rows _ _ _ _

theorem eraseFold_cols (xCol yRow : Int) (l : List (Int × Int)) (h : Grid) :
    (l.foldl (eraseStep xCol yRow) h).cols = h.cols := by
  induction l generalizing h with
  | nil => rfl
  | cons off l ih => rw [List.foldl_cons, ih]; exact eraseStep_cols _ _ _ _

theorem erasePixel_rows (g : Grid) (xCol yRow : Int) :
    (erasePixel g xCol yRow).rows = g.rows :=
  eraseFold_rows xCol yRow offsets _

theorem erasePixel_cols (g : Grid) (xCol yRow : Int) :
    (erasePixel g xCol yRow).cols = g.cols :=
  eraseFold_cols xCol yRow offsets _

theorem mem_offsets_iff (d : Int × Int) : d ∈ offsets ↔ |d.1| ≤ 1 ∧ |d.2| ≤ 1 := by
  constructor
  · intro hd
    fin_cases hd <;> decide
  · rintro ⟨h1, h2⟩
    obtain ⟨a, b⟩ := d
    simp only at h1 h2
    obtain ⟨ha1, ha2⟩ := abs_le.mp h1
    obtain ⟨hb1, hb2⟩ := abs_le.mp h2
    interval_cases a <;> interval_cases b <;> simp [offsets]

theorem exists_offset_iff (xCol yRow : Int) (p : Int × Int) :
    (∃ off ∈ offsets, p = eraseCellOf xCol yRow off) ↔
      |p.1 - yRow| ≤ 1 ∧ |p.2 - xCol| ≤ 1 := by
  constructor
  · rintro ⟨off, hmem, rfl⟩
    have h := (mem_offsets_iff off).mp hmem
    simp only [eraseCellOf]
    constructor
    · simpa using h.1
    · simpa using h.2
  · rintro ⟨h1, h2⟩
    refine ⟨(p.1 - yRow, p.2 - xCol), (mem_offsets_iff _).mpr ⟨h1, h2⟩, ?_⟩
    simp [eraseCellOf]

/-- C5.  For an in-bounds target, `erasePixel (xCol, yRow)` sets the cell
at (yRow, xCol) to Removed unconditionally, recolors each in-bounds 3×3
neighbor that is currently Foreground to Adjacent, and leaves every other
cell (non-Foreground neighbors, out-of-bounds neighbors, and all cells
outside the 3×3 block) unchanged; the dimensions are untouched. -/
theorem claim_C5_erasePixel (g : Grid) (xCol yRow : Int)
    (htarget : inGrid g yRow xCol) :
    ((erasePixel g xCol yRow).state yRow xCol = PixelState.removed) ∧
      (∀ r c : Int, ¬(r = yRow ∧ c = xCol) → |r - yRow| ≤ 1 → |c - xCol| ≤ 1 →
        inGrid g r c →
        ((g.state r c = PixelState.foreground →
            (erasePixel g xCol yRow).state r c = PixelState.adjacent) ∧
          (g.state r c ≠ PixelState.foreground →
            (erasePixel g xCol yRow).state r c = g.state r c))) ∧
      (∀ r c : Int, ¬(r = yRow ∧ c = xCol) → ¬ inGrid g r c →
        (erasePixel g xCol yRow).state r c = g.state r c) ∧
      (∀ r c : Int, ¬(|r - yRow| ≤ 1 ∧ |c - xCol| ≤ 1) →
        (erasePixel g xCol yRow).state r c = g.state r c) ∧
      (erasePixel g xCol yRow).rows = g.rows ∧
      (erasePixel g xCol yRow).cols = g.cols := by
  have hbase : ∀ r c : Int, ¬(r = yRow ∧ c = xCol) →
      (setCell g yRow xCol PixelState.removed).state r c = g.state r c :=
    fun r c h => setCell_state_of_ne _ _ _ _ _ _ h
  have hmain : ∀ p : Int × Int, (erasePixel g xCol yRow).state p.1 p.2 =
      if (∃ off ∈ offsets, p = eraseCellOf xCol yRow off) ∧
          inGrid (setCell g yRow xCol PixelState.removed) p.1 p.2 ∧
          (setCell g yRow xCol PixelState.removed).state p.1 p.2 = PixelState.foreground
      then PixelState.adjacent
      else (setCell g yRow xCol PixelState.removed).state p.1 p.2 :=
    fun p => eraseFold_state xCol yRow offsets _ offsets_pairwise p
  refine ⟨?_, ?_, ?_, ?_, erasePixel_rows g xCol yRow, erasePixel_cols g xCol yRow⟩
  · have := hmain (yRow, xCol)
    rw [if_neg (by
      rintro ⟨-, -, hfg⟩
      rw [setCell_state_self] at hfg
      exact PixelState.noConfusion hfg)] at this
    simpa [setCell_state_self] using this
  · intro r c hne h1 h2 hin
    have hst : (setCell g yRow xCol PixelState.removed).state r c = g.state r c :=
      hbase r c hne
    have := hmain (r, c)
    constructor
    · intro hfg
      rwa [if_pos ⟨(exists_offset_iff xCol yRow (r, c)).mpr ⟨h1, h2⟩, hin,
        hst.trans hfg⟩] at this
    · intro hfg
      rwa [if_neg (by rintro ⟨-, -, h⟩; exact hfg (hst.symm.trans h)), hst] at this
  · intro r c hne hnin
    have := hmain (r, c)
    rwa [if_neg (by rintro ⟨-, h, -⟩; exact hnin h), hbase r c hne] at this
  · intro r c hfar
    have hne : ¬(r = yRow ∧ c = xCol) := by
      rintro ⟨rfl, rfl⟩
      exact hfar ⟨by simp, by simp⟩
    have := hmain (r, c)
    rwa [if_neg (by
        rintro ⟨hex, -, -⟩
        exact hfar ((exists_offset_iff xCol yRow (r, c)).mp hex)),
      hbase r c hne] at this

/-- Witness for C5 on a concrete 3×3 all-Foreground grid, erasing (1, 1). -/
theorem claim_C5_erasePixel_witness :
    inGrid (Grid.mk 3 3 (fun _ _ => PixelState.foreground)) 1 1 ∧
      (erasePixel (Grid.mk 3 3 (fun _ _ => PixelState.foreground)) 1 1).state 1 1 =
        PixelState.removed ∧
      (erasePixel (Grid.mk 3 3 (fun _ _ => PixelState.foreground)) 1 1).state 0 0 =
        PixelState.adjacent := by
  refine ⟨by decide, (claim_C5_erasePixel _ 1 1 (by decide)).1, ?_⟩
  exact ((claim_C5_erasePixel (Grid.mk 3 3 (fun _ _ => PixelState.foreground)) 1 1
    (by decide)).2.1 0 0 (by decide) (by decide) (by decide) (by decide)).1 rfl

/-- The neighbor cells whose state the eraser reads: the recorded accesses
except the initial write to the target cell itself. -/
def inspectedNeighbors (g : Grid) (xCol yRow : Int) : List (Int × Int) :=
  (erasePixelAccesses g xCol yRow).tail.filter (fun p => p ≠ (yRow, xCol))

/-- C8.  Every cell access `erasePixel` performs for an in-bounds target is
in bounds, and for the corner (0, 0) of a grid with at least 2 rows and 2
columns the neighbors it inspects are exactly the 3 in-bounds ones:
(0, 1), (1, 0) and (1, 1). -/
theorem claim_C8_eraser_bounds :
    (∀ (g : Grid) (xCol yRow : Int), inGrid g yRow xCol →
      ∀ p ∈ erasePixelAccesses g xCol yRow, inGrid g p.1 p.2) ∧
      (∀ g : Grid, 2 ≤ g.rows → 2 ≤ g.cols →
        inspectedNeighbors g 0 0 = [(0, 1), (1, 0), (1, 1)]) := by
  constructor
  · intro g xCol yRow htarget p hp
    rcases List.mem_cons.mp hp with rfl | htail
    · exact htarget
    · obtain ⟨off, -, hoff⟩ := List.mem_filterMap.mp htail
      simp only at hoff
      by_cases hg : inGrid g (yRow + off.1) (xCol + off.2)
      · rw [if_pos hg] at hoff
        obtain rfl := Option.some.inj hoff
        exact hg
      · rw [if_neg hg] at hoff
        exact absurd hoff (by simp)
  · intro g hr hc
    have h2r : (2 : Int) ≤ (g.rows : Int) := by exact_mod_cast hr
    have h2c : (2 : Int) ≤ (g.cols : Int) := by exact_mod_cast hc
    have hneg : ¬((0 : Int) ≤ -1) := by norm_num
    have h0r : (0 : Int) < (g.rows : Int) := by omega
    have h1r : (1 : Int) < (g.rows : Int) := by omega
    have h0c : (0 : Int) < (g.cols : Int) := by omega
    have h1c : (1 : Int) < (g.cols : Int) := by omega
    simp [inspectedNeighbors, erasePixelAccesses, offsets, inGrid,
      hneg, h0r, h1r, h0c, h1c, List.filter]

/-- Witness for C8 on a concrete 2×2 all-Foreground grid. -/
theorem claim_C8_eraser_bounds_witness :
    (inGrid (Grid.mk 2 2 (fun _ _ => PixelState.foreground)) 0 0 ∧
      (0, 0) ∈ erasePixelAccesses (Grid.mk 2 2 (fun _ _ => PixelState.foreground)) 0 0 ∧
      inGrid (Grid.mk 2 2 (fun _ _ => PixelState.foreground)) 0 0) ∧
      inspectedNeighbors (Grid.mk 2 2 (fun _ _ => PixelState.foreground)) 0 0 =
        [(0, 1), (1, 0), (1, 1)] := by
  refine ⟨⟨by decide, by decide, ?_⟩, ?_⟩
  · exact claim_C8_eraser_bounds.1 (Grid.mk 2 2 (fun _ _ => PixelState.foreground))
      0 0 (by decide) (0, 0) (by decide)
  · exact claim_C8_eraser_bounds.2 (Grid.mk 2 2 (fun _ _ => PixelState.foreground))
      (by decide) (by decide)

/-! ## The line-drawing loop -/

theorem lineStep_grid_state (aF aT : Int × Int) (gi : Grid × Image) (i : Nat)
    (p : Int × Int) :
    (lineStep aF aT gi i).1.state p.1 p.2 =
      if p = linePixel aF aT i then PixelState.healed else gi.1.state p.1 p.2 := by
  dsimp only [lineStep]
  by_cases hp : p = linePixel aF aT i
  · rw [if_pos hp, hp]
    exact setCell_state_self _ _ _ _
  · rw [if_neg hp]
    refine setCell_state_of_ne _ _ _ _ _ _ ?_
    rintro ⟨h1, h2⟩
    exact hp (Prod.ext h1 h2)

theorem lineStep_image (aF aT : Int × Int) (gi : Grid × Image) (i : Nat)
    (q : Int × Int) :
    (lineStep aF aT gi i).2 q =
      if q = ((linePixel aF aT i).2, (linePixel aF aT i).1) then true else gi.2 q := rfl

theorem lineStep_rows (aF aT : Int × Int) (gi : Grid × Image) (i : Nat) :
    (lineStep aF aT gi i).1.rows = gi.1.rows := rfl

theorem lineStep_cols (aF aT : Int × Int) (gi : Grid × Image) (i : Nat) :
    (lineStep aF aT gi i).1.cols = gi.1.cols := rfl

theorem lineFold_grid_state (aF aT : Int × Int) (l : List Nat) (gi : Grid × Image)
    (p : Int × Int) :
    (l.foldl (lineStep aF aT) gi).1.state p.1 p.2 =
      if ∃ i ∈ l, linePixel aF aT i = p then PixelState.healed
      else gi.1.state p.1 p.2 := by
  induction l generalizing gi with
  | nil => simp
  | cons i l ih =>
    rw [List.foldl_cons, ih, lineStep_grid_state]
    by_cases hex : ∃ j ∈ l, linePixel aF aT j = p
    · rw [if_pos hex, if_pos ⟨hex.choose, List.mem_cons_of_mem _ hex.choose_spec.1,
        hex.choose_spec.2⟩]
    · rw [if_neg hex]
      by_cases hp : p = linePixel aF aT i
      · rw [if_pos hp, if_pos ⟨i, List.mem_cons_self _ _, hp.symm⟩]
      · rw [if_neg hp, if_neg (by
          rintro ⟨j, hj, hjp⟩
          rcases List.mem_cons.mp hj with rfl | hj2
          · exact hp hjp.symm
          · exact hex ⟨j, hj2, hjp⟩)]

theorem lineFold_image (aF aT : Int × Int) (l : List Nat) (gi : Grid × Image)
    (q : Int × Int) :
    (l.foldl (lineStep aF aT) gi).2 q =
      if ∃ i ∈ l, ((linePixel aF aT i).2, (linePixel aF aT i).1) = q then true
      else gi.2 q := by
  induction l generalizing gi with
  | nil => simp
  | cons i l ih =>
    rw [List.foldl_cons, ih, lineStep_image]
    by_cases hex : ∃ j ∈ l, ((linePixel aF aT j).2, (linePixel aF aT j).1) = q
    · rw [if_pos hex, if_pos ⟨hex.choose, List.mem_cons_of_mem _ hex.choose_spec.1,
        hex.choose_spec.2⟩]
    · rw [if_neg hex]
      by_cases hp : q = ((linePixel aF aT i).2, (linePixel aF aT i).1)
      · rw [if_pos hp, if_pos ⟨i, List.mem_cons_self _ _, hp.symm⟩]
      · rw [if_neg hp, if_neg (by
          rintro ⟨j, hj, hjp⟩
          rcases List.mem_cons.mp hj with rfl | hj2
          · exact hp hjp.symm
          · exact hex ⟨j, hj2, hjp⟩)]

theorem lineFold_rows (aF aT : Int × Int) (l : List Nat) (gi : Grid × Image) :
    (l.foldl (lineStep aF aT) gi).1.rows = gi.1.rows := by
  induction l generalizing gi with
  | nil => rfl
  | cons i l ih => rw [List.foldl_cons, ih]; rfl

theorem lineFold_cols (aF aT : Int × Int) (l : List Nat) (gi : Grid × Image) :
    (l.foldl (lineStep aF aT) gi).1.cols = gi.1.cols := by
  induction l generalizing gi with
  | nil => rfl
  | cons i l ih => rw [List.foldl_cons, ih]; rfl

theorem one_le_lineCount (aF aT : Int × Int) : 1 ≤ lineCount aF aT := by
  have h : (0 : Int) ≤ max |aF.1 - aT.1| |aF.2 - aT.2| :=
    le_trans (abs_nonneg _) (le_max_left _ _)
  unfold lineCount
  linarith

theorem linePixel_horiz (i : Nat) (h : i < 6) :
    linePixel ((0 : Int), (0 : Int)) ((0 : Int), (5 : Int)) i = (0, (i : Int)) := by
  interval_cases i <;> norm_num [linePixel, lineCount, cIntOfRat]

/-- C2.  The step count is 1 plus the Chebyshev distance of the anchors;
when it exceeds 1, every index writes Healed to the grid at the rounded
interpolated (row, col) and paints that pixel black in the image; and
connecting anchors (0, 0) and (0, 5) heals exactly the six pixels at
row 0, columns 0..5, leaving every other cell unchanged. -/
theorem claim_C2_line_rasterization :
    (∀ aF aT : Int × Int, lineCount aF aT = 1 + max |aF.1 - aT.1| |aF.2 - aT.2|) ∧
      (∀ (aF aT : Int × Int) (gi : Grid × Image), 1 < lineCount aF aT →
        ∀ i : Nat, i < (lineCount aF aT).toNat →
          (drawLine aF aT gi).1.state (linePixel aF aT i).1 (linePixel aF aT i).2 =
              PixelState.healed ∧
            (drawLine aF aT gi).2 ((linePixel aF aT i).2, (linePixel aF aT i).1) = true) ∧
      (∀ (gi : Grid × Image) (p : Int × Int),
        (drawLine (0, 0) (0, 5) gi).1.state p.1 p.2 =
          if p.1 = 0 ∧ 0 ≤ p.2 ∧ p.2 ≤ 5 then PixelState.healed
          else gi.1.state p.1 p.2) := by
  refine ⟨fun aF aT => rfl, ?_, ?_⟩
  · intro aF aT gi hcount i hi
    rw [drawLine, if_pos hcount]
    constructor
    · rw [lineFold_grid_state,
        if_pos ⟨i, List.mem_range.mpr hi, rfl⟩]
    · rw [lineFold_image,
        if_pos ⟨i, List.mem_range.mpr hi, rfl⟩]
  · intro gi p
    have hc : lineCount (0, 0) ((0 : Int), (5 : Int)) = 6 := by decide
    rw [drawLine, if_pos (by decide), lineFold_grid_state]
    refine if_congr ?_ rfl rfl
    constructor
    · rintro ⟨i, hi, rfl⟩
      have hi6 : i < 6 := by
        have := List.mem_range.mp hi
        omega
      rw [linePixel_horiz i hi6]
      refine ⟨rfl, by show (0 : Int) ≤ (i : Int); omega, by show (i : Int) ≤ 5; omega⟩
    · rintro ⟨h1, h2, h3⟩
      obtain ⟨r, c⟩ := p
      simp only at h1 h2 h3
      subst h1
      interval_cases c
      · exact ⟨0, by decide, by simpa using linePixel_horiz 0 (by norm_num)⟩
      · exact ⟨1, by decide, by simpa using linePixel_horiz 1 (by norm_num)⟩
      · exact ⟨2, by decide, by simpa using linePixel_horiz 2 (by norm_num)⟩
      · exact ⟨3, by decide, by simpa using linePixel_horiz 3 (by norm_num)⟩
      · exact ⟨4, by decide, by simpa using linePixel_horiz 4 (by norm_num)⟩
      · exact ⟨5, by decide, by simpa using linePixel_horiz 5 (by norm_num)⟩

/-- Witness for C2 at anchors (0, 0), (0, 5) on a concrete 6×6 grid. -/
theorem claim_C2_line_rasterization_witness :
    1 < lineCount ((0 : Int), (0 : Int)) ((0 : Int), (5 : Int)) ∧
      (drawLine (0, 0) (0, 5)
          (Grid.mk 6 6 (fun _ _ => PixelState.background), fun _ => false)).1.state
          (linePixel (0, 0) (0, 5) 2).1 (linePixel (0, 0) (0, 5) 2).2 =
        PixelState.healed := by
  refine ⟨by decide, ?_⟩
  exact (claim_C2_line_rasterization.2.1 (0, 0) (0, 5)
    (Grid.mk 6 6 (fun _ _ => PixelState.background), fun _ => false)
    (by decide) 2 (by decide)).1

/-! ## C9: the rasterized line stays within the anchors' bounding box -/

theorem cIntOfRat_interp_bounds (a b : Int) (s : ℚ) (hs0 : 0 ≤ s) (hs1 : s ≤ 1)
    (hmin : 0 ≤ min a b) :
    min a b ≤ cIntOfRat (1/2 + (1 - s) * (a : ℚ) + s * (b : ℚ)) ∧
      cIntOfRat (1/2 + (1 - s) * (a : ℚ) + s * (b : ℚ)) ≤ max a b := by
  have ha1 : ((min a b : Int) : ℚ) ≤ (a : ℚ) := by exact_mod_cast min_le_left a b
  have ha2 : ((min a b : Int) : ℚ) ≤ (b : ℚ) := by exact_mod_cast min_le_right a b
  have hb1 : (a : ℚ) ≤ ((max a b : Int) : ℚ) := by exact_mod_cast le_max_left a b
  have hb2 : (b : ℚ) ≤ ((max a b : Int) : ℚ) := by exact_mod_cast le_max_right a b
  have hlow : ((min a b : Int) : ℚ) ≤ (1 - s) * a + s * b := by nlinarith
  have hhigh : (1 - s) * a + s * b ≤ ((max a b : Int) : ℚ) := by nlinarith
  have hm0 : (0 : ℚ) ≤ ((min a b : Int) : ℚ) := by exact_mod_cast hmin
  have hq0 : (0 : ℚ) ≤ 1/2 + (1 - s) * a + s * b := by linarith
  have hfloor : cIntOfRat (1/2 + (1 - s) * (a : ℚ) + s * (b : ℚ)) =
      ⌊1/2 + (1 - s) * (a : ℚ) + s * (b : ℚ)⌋ := by
    unfold cIntOfRat
    rw [if_neg (not_lt.mpr hq0)]
  constructor
  · rw [hfloor]
    refine Int.le_floor.mpr ?_
    push_cast at hlow ⊢
    linarith
  · rw [hfloor]
    refine Int.lt_add_one_iff.mp (Int.floor_lt.mpr ?_)
    push_cast at hhigh ⊢
    linarith

theorem lineParam_bounds (aF aT : Int × Int) (i : Nat)
    (hi : (i : Int) < lineCount aF aT) :
    0 ≤ (i : ℚ) / ((lineCount aF aT : ℚ) - 1) ∧
      (i : ℚ) / ((lineCount aF aT : ℚ) - 1) ≤ 1 := by
  rcases eq_or_lt_of_le (one_le_lineCount aF aT) with h1 | h1
  · rw [← h1]
    norm_num
  · have hc : (0 : ℚ) < (lineCount aF aT : ℚ) - 1 := by
      have : (1 : ℚ) < (lineCount aF aT : ℚ) := by exact_mod_cast h1
      linarith
    constructor
    · positivity
    · rw [div_le_one hc]
      have h2 : (i : Int) ≤ lineCount aF aT - 1 := by omega
      have h3 : ((i : Int) : ℚ) ≤ ((lineCount aF aT - 1 : Int) : ℚ) := by exact_mod_cast h2
      push_cast at h3
      linarith

theorem linePixel_bounds (aF aT : Int × Int) (i : Nat)
    (hminr : 0 ≤ min aF.1 aT.1) (hminc : 0 ≤ min aF.2 aT.2)
    (hi : (i : Int) < lineCount aF aT) :
    (min aF.1 aT.1 ≤ (linePixel aF aT i).1 ∧ (linePixel aF aT i).1 ≤ max aF.1 aT.1) ∧
      (min aF.2 aT.2 ≤ (linePixel aF aT i).2 ∧ (linePixel aF aT i).2 ≤ max aF.2 aT.2) := by
  obtain ⟨hs0, hs1⟩ := lineParam_bounds aF aT i hi
  exact ⟨cIntOfRat_interp_bounds aF.1 aT.1 _ hs0 hs1 hminr,
    cIntOfRat_interp_bounds aF.2 aT.2 _ hs0 hs1 hminc⟩

/-- C9.  When both anchors are in bounds, every pixel the line loop writes
has its row in the closed interval spanned by the anchors' rows and its
col in the interval spanned by the anchors' cols, hence is in bounds; so
neither the grid write nor the image write of `drawLine` can touch an
out-of-range coordinate. -/
theorem claim_C9_line_in_bounds (aF aT : Int × Int) (gi : Grid × Image)
    (hF : inGrid gi.1 aF.1 aF.2) (hT : inGrid gi.1 aT.1 aT.2) :
    (∀ i : Nat, (i : Int) < lineCount aF aT →
      (min aF.1 aT.1 ≤ (linePixel aF aT i).1 ∧ (linePixel aF aT i).1 ≤ max aF.1 aT.1) ∧
        (min aF.2 aT.2 ≤ (linePixel aF aT i).2 ∧ (linePixel aF aT i).2 ≤ max aF.2 aT.2) ∧
        inGrid gi.1 (linePixel aF aT i).1 (linePixel aF aT i).2) ∧
      (∀ p : Int × Int, (drawLine aF aT gi).1.state p.1 p.2 ≠ gi.1.state p.1 p.2 →
        inGrid gi.1 p.1 p.2) ∧
      (∀ q : Int × Int, (drawLine aF aT gi).2 q ≠ gi.2 q → inGrid gi.1 q.2 q.1) := by
  obtain ⟨hF1, hF2, hF3, hF4⟩ := hF
  obtain ⟨hT1, hT2, hT3, hT4⟩ := hT
  have hminr : 0 ≤ min aF.1 aT.1 := le_min hF1 hT1
  have hminc : 0 ≤ min aF.2 aT.2 := le_min hF3 hT3
  have hpix : ∀ i : Nat, (i : Int) < lineCount aF aT →
      inGrid gi.1 (linePixel aF aT i).1 (linePixel aF aT i).2 := by
    intro i hi
    obtain ⟨⟨hr1, hr2⟩, hc1, hc2⟩ := linePixel_bounds aF aT i hminr hminc hi
    refine ⟨le_trans hminr hr1, lt_of_le_of_lt hr2 ?_, le_trans hminc hc1,
      lt_of_le_of_lt hc2 ?_⟩
    · exact max_lt hF2 hT2
    · exact max_lt hF4 hT4
  refine ⟨fun i hi => ⟨(linePixel_bounds aF aT i hminr hminc hi).1,
    (linePixel_bounds aF aT i hminr hminc hi).2, hpix i hi⟩, ?_, ?_⟩
  · intro p hp
    unfold drawLine at hp
    by_cases hcount : 1 < lineCount aF aT
    · rw [if_pos hcount, lineFold_grid_state] at hp
      by_cases hex : ∃ i ∈ List.range (lineCount aF aT).toNat, linePixel aF aT i = p
      · obtain ⟨i, hi, rfl⟩ := hex
        have : (i : Int) < lineCount aF aT := by
          have := List.mem_range.mp hi
          omega
        exact hpix i this
      · rw [if_neg hex] at hp
        exact absurd rfl hp
    · rw [if_neg hcount] at hp
      exact absurd rfl hp
  · intro q hq
    unfold drawLine at hq
    by_cases hcount : 1 < lineCount aF aT
    · rw [if_pos hcount, lineFold_image] at hq
      by_cases hex : ∃ i ∈ List.range (lineCount aF aT).toNat,
          ((linePixel aF aT i).2, (linePixel aF aT i).1) = q
      · obtain ⟨i, hi, rfl⟩ := hex
        have : (i : Int) < lineCount aF aT := by
          have := List.mem_range.mp hi
          omega
        exact hpix i this
      · rw [if_neg hex] at hq
        exact absurd rfl hq
    · rw [if_neg hcount] at hq
      exact absurd rfl hq

/-- Witness for C9 with anchors (0, 0) and (2, 3) on a concrete 5×5 grid. -/
theorem claim_C9_line_in_bounds_witness :
    inGrid (Grid.mk 5 5 (fun _ _ => PixelState.background)) 0 0 ∧
      inGrid (Grid.mk 5 5 (fun _ _ => PixelState.background)) 2 3 ∧
      inGrid (Grid.mk 5 5 (fun _ _ => PixelState.background))
        (linePixel (0, 0) (2, 3) 1).1 (linePixel (0, 0) (2, 3) 1).2 := by
  refine ⟨by decide, by decide, ?_⟩
  exact ((claim_C9_line_in_bounds (0, 0) (2, 3)
    (Grid.mk 5 5 (fun _ _ => PixelState.background), fun _ => false)
    (by decide) (by decide)).1 1 (by decide)).2.2

/-! ## C1: the pairwise proximity search -/

/-- The ordered pairs visited by the double iterator loop of
connectCloseGroups: each entry paired with every strictly later entry, so
each unordered pair of distinct groups appears exactly once and no pair
(I, I) appears. -/
def laterPairs : List RegionInfo → List (RegionInfo × RegionInfo)
  | [] => []
  | x :: rest => rest.map (fun y => (x, y)) ++ laterPairs rest

/-- The body of the pair loop (lines 72-96): compare the squared centroid
separation against the squared threshold and draw the anchor-to-anchor
line exactly when it is strictly smaller. -/
def pairStep (closeDistanceSquared : ℚ) (gi : Grid × Image)
    (pr : RegionInfo × RegionInfo) : Grid × Image :=
  let separation : ℚ × ℚ :=
    (pr.1.centroid.1 - pr.2.centroid.1, pr.1.centroid.2 - pr.2.centroid.2)
  let separationMagnitudeSquared :=
    separation.1 * separation.1 + separation.2 * separation.2
  if separationMagnitudeSquared < closeDistanceSquared then
    drawLine pr.1.pixel pr.2.pixel gi
  else gi

theorem connectInner_eq_fold (t2 : ℚ) (rFrom : RegionInfo) (l : List RegionInfo)
    (gi : Grid × Image) :
    connectInner t2 rFrom l gi =
      (l.map (fun y => (rFrom, y))).foldl (pairStep t2) gi := by
  induction l generalizing gi with
  | nil => rfl
  | cons rTo rest ih => exact ih (pairStep t2 gi (rFrom, rTo))

theorem connectOuter_eq_fold (t2 : ℚ) (l : List RegionInfo) (gi : Grid × Image) :
    connectOuter t2 l gi = (laterPairs l).foldl (pairStep t2) gi := by
  induction l generalizing gi with
  | nil => rfl
  | cons rFrom rest ih =>
    show connectOuter t2 rest (connectInner t2 rFrom rest gi) = _
    rw [ih, connectInner_eq_fold, laterPairs, List.foldl_append]

/-- C1.  connectCloseGroups is exactly the fold of the pair body over every
unordered pair of distinct recorded groups (each visited once, in map
order); the pair body draws the anchor-to-anchor healing line when the
squared centroid separation is strictly below the squared threshold, and
otherwise — in particular when the separation equals the threshold
exactly — it returns the grid and the image completely unchanged (no
Healed cell, no painted pixel). -/
theorem claim_C1_threshold (closeDistance : ℚ) (regions : List RegionInfo)
    (gi : Grid × Image) :
    (connectCloseGroups closeDistance regions gi =
        (laterPairs regions).foldl (pairStep (closeDistance * closeDistance)) gi) ∧
      (∀ (a b : RegionInfo) (gi2 : Grid × Image),
        (a.centroid.1 - b.centroid.1) * (a.centroid.1 - b.centroid.1) +
            (a.centroid.2 - b.centroid.2) * (a.centroid.2 - b.centroid.2) <
          closeDistance * closeDistance →
        pairStep (closeDistance * closeDistance) gi2 (a, b) =
          drawLine a.pixel b.pixel gi2) ∧
      (∀ (a b : RegionInfo) (gi2 : Grid × Image),
        ¬((a.centroid.1 - b.centroid.1) * (a.centroid.1 - b.centroid.1) +
            (a.centroid.2 - b.centroid.2) * (a.centroid.2 - b.centroid.2) <
          closeDistance * closeDistance) →
        pairStep (closeDistance * closeDistance) gi2 (a, b) = gi2) ∧
      (∀ (a b : RegionInfo) (gi2 : Grid × Image),
        (a.centroid.1 - b.centroid.1) * (a.centroid.1 - b.centroid.1) +
            (a.centroid.2 - b.centroid.2) * (a.centroid.2 - b.centroid.2) =
          closeDistance * closeDistance →
        pairStep (closeDistance * closeDistance) gi2 (a, b) = gi2) := by
  refine ⟨connectOuter_eq_fold _ _ _, ?_, ?_, ?_⟩
  · intro a b gi2 h
    simp only [pairStep]
    rw [if_pos h]
  · intro a b gi2 h
    simp only [pairStep]
    rw [if_neg h]
  · intro a b gi2 h
    simp only [pairStep]
    rw [if_neg (h ▸ lt_irrefl _)]

/-- Witness for C1: two groups with centroids (0, 0) and (0, 4) at
threshold 4 — squared separation 16 equals the squared threshold, so the
pair body leaves grid and image untouched. -/
theorem claim_C1_threshold_witness :
    ((RegionInfo.mk 100 (0, 0) (0, 0)).centroid.1 -
          (RegionInfo.mk 101 (0, 4) (0, 4)).centroid.1) *
        ((RegionInfo.mk 100 (0, 0) (0, 0)).centroid.1 -
          (RegionInfo.mk 101 (0, 4) (0, 4)).centroid.1) +
      ((RegionInfo.mk 100 (0, 0) (0, 0)).centroid.2 -
          (RegionInfo.mk 101 (0, 4) (0, 4)).centroid.2) *
        ((RegionInfo.mk 100 (0, 0) (0, 0)).centroid.2 -
          (RegionInfo.mk 101 (0, 4) (0, 4)).centroid.2) =
        (4 : ℚ) * 4 ∧
      pairStep ((4 : ℚ) * 4)
          (Grid.mk 5 5 (fun _ _ => PixelState.background), fun _ => false)
          (RegionInfo.mk 100 (0, 0) (0, 0), RegionInfo.mk 101 (0, 4) (0, 4)) =
        (Grid.mk 5 5 (fun _ _ => PixelState.background), fun _ => false) := by
  constructor
  · norm_num
  · exact (claim_C1_threshold 4 []
      (Grid.mk 5 5 (fun _ _ => PixelState.background), fun _ => false)).2.2.2
      (RegionInfo.mk 100 (0, 0) (0, 0)) (RegionInfo.mk 101 (0, 4) (0, 4)) _
      (by norm_num)

/-! ## Flood-fill machinery -/

/-- The neighbor-loop body of `recursiveSearchForAdjacentPixels`, named for
reasoning: recurse into the neighbor when it is in bounds and Adjacent. -/
def fillStep (fuel boundaryGroup : Nat) (row col : Int) (s : FillState)
    (off : Int × Int) : FillState :=
  let rowNeighbor := row + off.1
  let colNeighbor := col + off.2
  if inGrid s.grid rowNeighbor colNeighbor ∧
      s.grid.state rowNeighbor colNeighbor = PixelState.adjacent then
    floodFill fuel boundaryGroup s rowNeighbor colNeighbor
  else s

theorem floodFill_zero (bg : Nat) (st : FillState) (row col : Int) :
    floodFill 0 bg st row col = { st with ok := false } := rfl

/-- The state right after the entry of one flood-fill call: coordinates
merged into the accumulators and the entry cell recolored to the group. -/
def fillStart (bg : Nat) (st : FillState) (row col : Int) : FillState :=
  { grid := setCell st.grid row col (PixelState.grouped bg)
    centroidCount := st.centroidCount + 1
    rowCentroidSum := st.rowCentroidSum + (row : ℚ)
    colCentroidSum := st.colCentroidSum + (col : ℚ)
    ok := st.ok }

theorem floodFill_succ (fuel bg : Nat) (st : FillState) (row col : Int) :
    floodFill (fuel + 1) bg st row col =
      if st.grid.state row col = PixelState.adjacent then
        offsets.foldl (fillStep fuel bg row col) (fillStart bg st row col)
      else { st with ok := false } := rfl

/-- A cell that the flood fill may enter: in bounds and Adjacent. -/
def okCell (g : Grid) (p : Int × Int) : Prop :=
  inGrid g p.1 p.2 ∧ g.state p.1 p.2 = PixelState.adjacent

instance (g : Grid) (p : Int × Int) : Decidable (okCell g p) := by
  unfold okCell
  infer_instance

/-- One 3×3-neighborhood move (the degenerate zero move is allowed; it is
harmless for reachability). -/
def kingStep (p q : Int × Int) : Prop := |q.1 - p.1| ≤ 1 ∧ |q.2 - p.2| ≤ 1

theorem kingStep_symm {p q : Int × Int} (h : kingStep p q) : kingStep q p := by
  obtain ⟨h1, h2⟩ := h
  exact ⟨by rw [abs_sub_comm]; exact h1, by rw [abs_sub_comm]; exact h2⟩

theorem kingStep_offset (row col : Int) (off : Int × Int) (h : off ∈ offsets) :
    kingStep (row, col) (row + off.1, col + off.2) := by
  obtain ⟨h1, h2⟩ := (mem_offsets_iff off).mp h
  refine ⟨?_, ?_⟩ <;> simp only
  · rw [show row + off.1 - row = off.1 by ring]
    exact h1
  · rw [show col + off.2 - col = off.2 by ring]
    exact h2

theorem kingStep_mem_offsets {p q : Int × Int} (h : kingStep p q) :
    (q.1 - p.1, q.2 - p.2) ∈ offsets :=
  (mem_offsets_iff _).mpr ⟨h.1, h.2⟩

/-- 8-connected reachability from `p` through cells that are in bounds and
Adjacent in `g`; this is the spec-level notion of a connected region of
Adjacent pixels. -/
inductive Reach (g : Grid) (p : Int × Int) : Int × Int → Prop
  | refl (h : okCell g p) : Reach g p p
  | tail (q r : Int × Int) (h : Reach g p q) (hstep : kingStep q r)
      (hok : okCell g r) : Reach g p r

theorem Reach.okCell_right {g : Grid} {p q : Int × Int} (h : Reach g p q) :
    okCell g q := by
  cases h with
  | refl h => exact h
  | tail _ _ _ _ hok => exact hok

theorem Reach.okCell_left {g : Grid} {p q : Int × Int} (h : Reach g p q) :
    okCell g p := by
  induction h with
  | refl h => exact h
  | tail _ _ _ _ _ ih => exact ih

theorem Reach.trans {g : Grid} {p q r : Int × Int} (h1 : Reach g p q)
    (h2 : Reach g q r) : Reach g p r := by
  induction h2 with
  | refl _ => exact h1
  | tail _ _ _ hstep hok ih => exact Reach.tail _ _ ih hstep hok

theorem Reach.symm {g : Grid} {p q : Int × Int} (h : Reach g p q) :
    Reach g q p := by
  induction h with
  | refl h => exact Reach.refl h
  | tail b c hpb hstep hok ih =>
    exact Reach.trans (Reach.tail _ _ (Reach.refl hok) (kingStep_symm hstep)
      hpb.okCell_right) ih

/-- Reachability is monotone under pointwise shrinking of the ok cells. -/
theorem Reach.mono {g g2 : Grid} (hok : ∀ x : Int × Int, okCell g2 x → okCell g x)
    {p q : Int × Int} (h : Reach g2 p q) : Reach g p q := by
  induction h with
  | refl hx => exact Reach.refl (hok p hx)
  | tail _ _ _ hstep hx ih => exact Reach.tail _ _ ih hstep (hok _ hx)

/-- Reachability only depends on the states of the cells reachable from
the start (same dimensions assumed). -/
theorem Reach.congr {g g2 : Grid} (hr : g2.rows = g.rows) (hc : g2.cols = g.cols)
    {p : Int × Int} (hagree : ∀ x : Int × Int, Reach g p x → g2.state x.1 x.2 = g.state x.1 x.2)
    {q : Int × Int} (h : Reach g p q) : Reach g2 p q := by
  induction h with
  | refl hx =>
    exact Reach.refl ⟨(inGrid_of_dims hr hc).mpr hx.1,
      (hagree p (Reach.refl hx)).trans hx.2⟩
  | tail b c hab hstep hokc ih =>
    refine Reach.tail _ _ ih hstep ⟨(inGrid_of_dims hr hc).mpr hokc.1, ?_⟩
    have hreach : Reach g p c := Reach.tail _ _ hab hstep hokc
    exact (hagree c hreach).trans hokc.2

/-! ## Cell counting -/

theorem mem_cellFinset {g : Grid} {p : Int × Int} :
    p ∈ cellFinset g ↔ inGrid g p.1 p.2 := by
  obtain ⟨r, c⟩ := p
  simp only [cellFinset, Finset.mem_product, Finset.mem_Icc, inGrid]
  omega

theorem cellFinset_congr {g g2 : Grid} (hr : g2.rows = g.rows)
    (hc : g2.cols = g.cols) : cellFinset g2 = cellFinset g := by
  unfold cellFinset
  rw [hr, hc]

theorem adjCount_pos {g : Grid} {p : Int × Int} (h : okCell g p) :
    1 ≤ adjCount g := by
  refine Finset.card_pos.mpr ⟨p, ?_⟩
  exact Finset.mem_filter.mpr ⟨mem_cellFinset.mpr h.1, h.2⟩

/-- Mark one Adjacent in-bounds cell with a non-Adjacent value: the number
of Adjacent cells drops by exactly one. -/
theorem adjCount_setCell {g : Grid} {row col : Int} {v : PixelState}
    (hok : okCell g (row, col)) (hv : v ≠ PixelState.adjacent) :
    adjCount (setCell g row col v) + 1 = adjCount g := by
  have hmem : (row, col) ∈ (cellFinset g).filter
      (fun p => g.state p.1 p.2 = PixelState.adjacent) :=
    Finset.mem_filter.mpr ⟨mem_cellFinset.mpr hok.1, hok.2⟩
  have hset : (cellFinset (setCell g row col v)).filter
      (fun p => (setCell g row col v).state p.1 p.2 = PixelState.adjacent) =
      ((cellFinset g).filter (fun p => g.state p.1 p.2 = PixelState.adjacent)).erase
        (row, col) := by
    ext p
    rw [Finset.mem_erase, Finset.mem_filter, Finset.mem_filter,
      cellFinset_congr (setCell_rows g row col v) (setCell_cols g row col v)]
    constructor
    · rintro ⟨hcell, hstate⟩
      by_cases hp : p = (row, col)
      · subst hp
        rw [setCell_state_self] at hstate
        exact absurd hstate hv
      · rw [setCell_state_of_ne _ _ _ _ _ _
          (by rintro ⟨h1, h2⟩; exact hp (Prod.ext h1 h2))] at hstate
        exact ⟨hp, hcell, hstate⟩
    · rintro ⟨hp, hcell, hstate⟩
      refine ⟨hcell, ?_⟩
      rw [setCell_state_of_ne _ _ _ _ _ _
        (by rintro ⟨h1, h2⟩; exact hp (Prod.ext h1 h2))]
      exact hstate
  unfold adjCount
  rw [hset, Finset.card_erase_of_mem hmem]
  have : 1 ≤ ((cellFinset g).filter
      (fun p => g.state p.1 p.2 = PixelState.adjacent)).card :=
    Finset.card_pos.mpr ⟨(row, col), hmem⟩
  omega

/-- A transition that only turns Adjacent cells into group marks can only
shrink the number of Adjacent cells. -/
theorem adjCount_le_of_frame {g g2 : Grid} {bg : Nat}
    (hr : g2.rows = g.rows) (hc : g2.cols = g.cols)
    (hframe : ∀ p : Int × Int, g2.state p.1 p.2 ≠ g.state p.1 p.2 →
      g.state p.1 p.2 = PixelState.adjacent ∧ g2.state p.1 p.2 = PixelState.grouped bg) :
    adjCount g2 ≤ adjCount g := by
  unfold adjCount
  rw [cellFinset_congr hr hc]
  refine Finset.card_le_card ?_
  intro p hp
  rw [Finset.mem_filter] at hp ⊢
  refine ⟨hp.1, ?_⟩
  by_cases hch : g2.state p.1 p.2 = g.state p.1 p.2
  · rw [← hch]
    exact hp.2
  · obtain ⟨-, h2⟩ := hframe p hch
    rw [hp.2] at h2
    exact absurd h2 (by simp)

/-! ## Changed-cell bookkeeping -/

/-- The in-bounds cells whose state differs between `g` and `g2`. -/
def diffF (g g2 : Grid) : Finset (Int × Int) :=
  (cellFinset g).filter (fun p => g2.state p.1 p.2 ≠ g.state p.1 p.2)

theorem mem_diffF {g g2 : Grid} {p : Int × Int} :
    p ∈ diffF g g2 ↔ inGrid g p.1 p.2 ∧ g2.state p.1 p.2 ≠ g.state p.1 p.2 := by
  rw [diffF, Finset.mem_filter, mem_cellFinset]

theorem diffF_setCell {g : Grid} {row col : Int} {v : PixelState}
    (hin : inGrid g row col) (hchanged : v ≠ g.state row col) :
    diffF g (setCell g row col v) = {(row, col)} := by
  ext p
  rw [mem_diffF, Finset.mem_singleton]
  constructor
  · rintro ⟨hcell, hne⟩
    by_contra hp
    rw [setCell_state_of_ne _ _ _ _ _ _
      (by rintro ⟨h1, h2⟩; exact hp (Prod.ext h1 h2))] at hne
    exact hne rfl
  · rintro rfl
    rw [setCell_state_self]
    exact ⟨hin, hchanged⟩

/-- Composing two frame-respecting transitions: the changed set of the
composite is the disjoint union of the two changed sets. -/
theorem diffF_compose {g g2 g3 : Grid} {bg bg2 : Nat}
    (hr : g2.rows = g.rows) (hc : g2.cols = g.cols)
    (hframe1 : ∀ p : Int × Int, g2.state p.1 p.2 ≠ g.state p.1 p.2 →
      g.state p.1 p.2 = PixelState.adjacent ∧ g2.state p.1 p.2 = PixelState.grouped bg)
    (hframe2 : ∀ p : Int × Int, g3.state p.1 p.2 ≠ g2.state p.1 p.2 →
      g2.state p.1 p.2 = PixelState.adjacent ∧ g3.state p.1 p.2 = PixelState.grouped bg2) :
    diffF g g3 = diffF g g2 ∪ diffF g2 g3 ∧ Disjoint (diffF g g2) (diffF g2 g3) := by
  constructor
  · ext p
    rw [Finset.mem_union, mem_diffF, mem_diffF, mem_diffF,
      inGrid_of_dims hr hc (r := p.1) (c := p.2)]
    constructor
    · rintro ⟨hcell, hne⟩
      by_cases h1 : g2.state p.1 p.2 = g.state p.1 p.2
      · exact Or.inr ⟨hcell, fun h2 => hne (h2.trans h1)⟩
      · exact Or.inl ⟨hcell, h1⟩
    · rintro (⟨hcell, hne⟩ | ⟨hcell, hne⟩)
      · refine ⟨hcell, ?_⟩
        obtain ⟨hadj, hgr⟩ := hframe1 p hne
        by_cases h2 : g3.state p.1 p.2 = g2.state p.1 p.2
        · rw [h2, hgr, hadj]
          simp
        · obtain ⟨hadj2, -⟩ := hframe2 p h2
          rw [hgr] at hadj2
          exact absurd hadj2 (by simp)
      · refine ⟨hcell, ?_⟩
        obtain ⟨hadj, hgr⟩ := hframe2 p hne
        by_cases h1 : g2.state p.1 p.2 = g.state p.1 p.2
        · rw [← h1, hadj, hgr]
          simp
        · obtain ⟨-, hgr1⟩ := hframe1 p h1
          rw [hgr1] at hadj
          exact absurd hadj (by simp)
  · rw [Finset.disjoint_left]
    rintro p hp1 hp2
    obtain ⟨-, hne1⟩ := mem_diffF.mp hp1
    obtain ⟨-, hne2⟩ := mem_diffF.mp hp2
    obtain ⟨-, hgr⟩ := hframe1 p hne1
    obtain ⟨hadj, -⟩ := hframe2 p hne2
    rw [hgr] at hadj
    exact absurd hadj (by simp)

theorem kingStep_add (row col : Int) (off : Int × Int)
    (h1 : |off.1| ≤ 1) (h2 : |off.2| ≤ 1) :
    kingStep (row, col) (row + off.1, col + off.2) := by
  refine ⟨?_, ?_⟩ <;> simp only
  · rw [show row + off.1 - row = off.1 by ring]
    exact h1
  · rw [show col + off.2 - col = off.2 by ring]
    exact h2

/-- Full postcondition of one flood-fill call from `st` at (row, col):
dimensions and the assert flag are preserved, the changed cells are
exactly those 8-reachable from the start through Adjacent cells (each
turned from Adjacent into the group mark), and the accumulators advance by
the count and coordinate sums of the changed cells; the number of Adjacent
cells strictly decreases. -/
structure FillOut (st : FillState) (row col : Int) (bg : Nat) (R : FillState) : Prop where
  rows_eq : R.grid.rows = st.grid.rows
  cols_eq : R.grid.cols = st.grid.cols
  ok_eq : R.ok = st.ok
  changed_group : ∀ p : Int × Int, R.grid.state p.1 p.2 ≠ st.grid.state p.1 p.2 →
    st.grid.state p.1 p.2 = PixelState.adjacent ∧
      R.grid.state p.1 p.2 = PixelState.grouped bg
  changed_reach : ∀ p : Int × Int, R.grid.state p.1 p.2 ≠ st.grid.state p.1 p.2 →
    Reach st.grid (row, col) p
  reach_changed : ∀ p : Int × Int, Reach st.grid (row, col) p →
    R.grid.state p.1 p.2 = PixelState.grouped bg
  cnt_eq : R.centroidCount = st.centroidCount + (diffF st.grid R.grid).card
  rowSum_eq : R.rowCentroidSum =
    st.rowCentroidSum + (diffF st.grid R.grid).sum (fun p => (p.1 : ℚ))
  colSum_eq : R.colCentroidSum =
    st.colCentroidSum + (diffF st.grid R.grid).sum (fun p => (p.2 : ℚ))
  adj_lt : adjCount R.grid < adjCount st.grid

/-- Invariant maintained by the neighbor fold inside one flood-fill call:
like `FillOut` but with the completeness clause replaced by the entry cell
being marked and the changed set being closed under Adjacent neighbors
(other than through the entry cell, whose remaining neighbors are handled
only when the fold finishes). -/
structure FoldInv (st : FillState) (row col : Int) (bg : Nat) (s : FillState) : Prop where
  rows_eq : s.grid.rows = st.grid.rows
  cols_eq : s.grid.cols = st.grid.cols
  ok_eq : s.ok = st.ok
  frame : ∀ p : Int × Int, s.grid.state p.1 p.2 ≠ st.grid.state p.1 p.2 →
    st.grid.state p.1 p.2 = PixelState.adjacent ∧
      s.grid.state p.1 p.2 = PixelState.grouped bg
  entry : s.grid.state row col = PixelState.grouped bg
  sound : ∀ p : Int × Int, s.grid.state p.1 p.2 ≠ st.grid.state p.1 p.2 →
    Reach st.grid (row, col) p
  closed : ∀ p : Int × Int, s.grid.state p.1 p.2 ≠ st.grid.state p.1 p.2 →
    p ≠ (row, col) → ∀ q : Int × Int, kingStep p q → inGrid st.grid q.1 q.2 →
    q ≠ (row, col) → st.grid.state q.1 q.2 = PixelState.adjacent →
    s.grid.state q.1 q.2 = PixelState.grouped bg
  cnt_eq : s.centroidCount = st.centroidCount + (diffF st.grid s.grid).card
  rowSum_eq : s.rowCentroidSum =
    st.rowCentroidSum + (diffF st.grid s.grid).sum (fun p => (p.1 : ℚ))
  colSum_eq : s.colCentroidSum =
    st.colCentroidSum + (diffF st.grid s.grid).sum (fun p => (p.2 : ℚ))
  adj_lt : adjCount s.grid < adjCount st.grid

/-- A cell ok in an intermediate fold state is ok in the original grid. -/
theorem FoldInv.okCell_transfer {st : FillState} {row col : Int} {bg : Nat}
    {s : FillState} (hs : FoldInv st row col bg s) :
    ∀ x : Int × Int, okCell s.grid x → okCell st.grid x := by
  rintro x ⟨hx1, hx2⟩
  refine ⟨(inGrid_of_dims hs.rows_eq hs.cols_eq).mp hx1, ?_⟩
  by_cases hch : s.grid.state x.1 x.2 = st.grid.state x.1 x.2
  · rw [← hch]
    exact hx2
  · obtain ⟨-, hgr⟩ := hs.frame x hch
    rw [hx2] at hgr
    exact absurd hgr (by simp)

/-- The neighbor fold of one flood-fill call preserves the invariant; in
addition, cells already changed keep their state, and every listed
neighbor of the entry cell that was Adjacent in the original grid is
marked with the group when the fold finishes. -/
theorem fillFold_inv (fuel bg : Nat) (st : FillState) (row col : Int)
    (hin : inGrid st.grid row col)
    (hadj : st.grid.state row col = PixelState.adjacent)
    (IH : ∀ (st2 : FillState) (r c : Int), inGrid st2.grid r c →
      st2.grid.state r c = PixelState.adjacent → adjCount st2.grid ≤ fuel →
      FillOut st2 r c bg (floodFill fuel bg st2 r c))
    (hfuel : adjCount st.grid ≤ fuel + 1)
    (l : List (Int × Int)) (hl : ∀ off ∈ l, |off.1| ≤ 1 ∧ |off.2| ≤ 1)
    (s : FillState) (hs : FoldInv st row col bg s) :
    FoldInv st row col bg (l.foldl (fillStep fuel bg row col) s) ∧
      (∀ p : Int × Int, s.grid.state p.1 p.2 ≠ st.grid.state p.1 p.2 →
        (l.foldl (fillStep fuel bg row col) s).grid.state p.1 p.2 =
          s.grid.state p.1 p.2) ∧
      (∀ off ∈ l, inGrid st.grid (row + off.1) (col + off.2) →
        ((row + off.1, col + off.2) : Int × Int) ≠ (row, col) →
        st.grid.state (row + off.1) (col + off.2) = PixelState.adjacent →
        (l.foldl (fillStep fuel bg row col) s).grid.state (row + off.1) (col + off.2) =
          PixelState.grouped bg) := by
  induction l generalizing s with
  | nil =>
    exact ⟨hs, fun p _ => rfl, by simp⟩
  | cons off l ih =>
    have hoff := hl off (List.mem_cons_self _ _)
    have hltail : ∀ o ∈ l, |o.1| ≤ 1 ∧ |o.2| ≤ 1 :=
      fun o ho => hl o (List.mem_cons_of_mem _ ho)
    rw [List.foldl_cons]
    by_cases hguard : inGrid s.grid (row + off.1) (col + off.2) ∧
        s.grid.state (row + off.1) (col + off.2) = PixelState.adjacent
    · -- the guard holds: the head step is a recursive flood-fill call
      obtain ⟨hgin, hgadj⟩ := hguard
      have hfuel2 : adjCount s.grid ≤ fuel := by
        have := hs.adj_lt
        omega
      have hstepeq : fillStep fuel bg row col s off =
          floodFill fuel bg s (row + off.1) (col + off.2) := by
        simp only [fillStep]
        rw [if_pos ⟨hgin, hgadj⟩]
      have FO := IH s (row + off.1) (col + off.2) hgin hgadj hfuel2
      rw [hstepeq]
      set s1 := floodFill fuel bg s (row + off.1) (col + off.2) with hs1def
      have hok_tr := hs.okCell_transfer
      have hreach_nr : Reach st.grid (row, col) (row + off.1, col + off.2) :=
        Reach.tail _ _ (Reach.refl ⟨hin, hadj⟩) (kingStep_add row col off hoff.1 hoff.2)
          (hok_tr _ ⟨hgin, hgadj⟩)
      have hpers1 : ∀ p : Int × Int, s.grid.state p.1 p.2 ≠ st.grid.state p.1 p.2 →
          s1.grid.state p.1 p.2 = s.grid.state p.1 p.2 := by
        intro p hch
        by_contra hne
        have hadj2 := (FO.changed_group p hne).1
        rw [(hs.frame p hch).2] at hadj2
        exact absurd hadj2 (by simp)
      have hframe1 : ∀ p : Int × Int, s1.grid.state p.1 p.2 ≠ st.grid.state p.1 p.2 →
          st.grid.state p.1 p.2 = PixelState.adjacent ∧
            s1.grid.state p.1 p.2 = PixelState.grouped bg := by
        intro p hch
        by_cases hch1 : s1.grid.state p.1 p.2 = s.grid.state p.1 p.2
        · rw [hch1] at hch ⊢
          exact hs.frame p hch
        · obtain ⟨hadj2, hgr2⟩ := FO.changed_group p hch1
          refine ⟨?_, hgr2⟩
          by_cases hch0 : s.grid.state p.1 p.2 = st.grid.state p.1 p.2
          · rw [← hch0]
            exact hadj2
          · rw [(hs.frame p hch0).2] at hadj2
            exact absurd hadj2 (by simp)
      have hA : FoldInv st row col bg s1 :=
        { rows_eq := FO.rows_eq.trans hs.rows_eq
          cols_eq := FO.cols_eq.trans hs.cols_eq
          ok_eq := FO.ok_eq.trans hs.ok_eq
          frame := hframe1
          entry := by
            have h := hpers1 (row, col) (by
              show s.grid.state row col ≠ st.grid.state row col
              rw [hs.entry, hadj]
              simp)
            exact h.trans hs.entry
          sound := by
            intro p hch
            by_cases hch1 : s1.grid.state p.1 p.2 = s.grid.state p.1 p.2
            · refine hs.sound p ?_
              rw [← hch1]
              exact hch
            · have hr := FO.changed_reach p hch1
              exact hreach_nr.trans (hr.mono hok_tr)
          closed := by
            intro p hch hpne q hstep hqin hqne hqadj
            by_cases hqch : s.grid.state q.1 q.2 = st.grid.state q.1 q.2
            · have hqok : okCell s.grid q :=
                ⟨(inGrid_of_dims hs.rows_eq hs.cols_eq).mpr hqin, hqch.trans hqadj⟩
              by_cases hch1 : s1.grid.state p.1 p.2 = s.grid.state p.1 p.2
              · have hpch : s.grid.state p.1 p.2 ≠ st.grid.state p.1 p.2 := by
                  rw [← hch1]
                  exact hch
                have hcon := hs.closed p hpch hpne q hstep hqin hqne hqadj
                rw [hqok.2] at hcon
                exact absurd hcon (by simp)
              · have hr := FO.changed_reach p hch1
                exact FO.reach_changed q (Reach.tail _ _ hr hstep hqok)
            · exact (hpers1 q hqch).trans ((hs.frame q hqch).2)
          cnt_eq := by
            obtain ⟨hun, hdisj⟩ :=
              diffF_compose hs.rows_eq hs.cols_eq hs.frame FO.changed_group
            rw [FO.cnt_eq, hs.cnt_eq, hun, Finset.card_union_of_disjoint hdisj]
            omega
          rowSum_eq := by
            obtain ⟨hun, hdisj⟩ :=
              diffF_compose hs.rows_eq hs.cols_eq hs.frame FO.changed_group
            rw [FO.rowSum_eq, hs.rowSum_eq, hun, Finset.sum_union hdisj]
            ring
          colSum_eq := by
            obtain ⟨hun, hdisj⟩ :=
              diffF_compose hs.rows_eq hs.cols_eq hs.frame FO.changed_group
            rw [FO.colSum_eq, hs.colSum_eq, hun, Finset.sum_union hdisj]
            ring
          adj_lt := lt_trans FO.adj_lt hs.adj_lt }
      obtain ⟨hinv, hpers, hcov⟩ := ih hltail s1 hA
      refine ⟨hinv, ?_, ?_⟩
      · intro p hch
        have h1 := hpers1 p hch
        have hch1 : s1.grid.state p.1 p.2 ≠ st.grid.state p.1 p.2 := by
          rw [h1]
          exact hch
        exact (hpers p hch1).trans h1
      · intro o ho hinb hne hadjq
        rcases List.mem_cons.mp ho with rfl | ho2
        · have hg : s1.grid.state (row + o.1) (col + o.2) = PixelState.grouped bg :=
            FO.reach_changed (row + o.1, col + o.2) (Reach.refl ⟨hgin, hgadj⟩)
          have hch1 : s1.grid.state (row + o.1) (col + o.2) ≠
              st.grid.state (row + o.1) (col + o.2) := by
            rw [hg, hadjq]
            simp
          exact (hpers ⟨row + o.1, col + o.2⟩ hch1).trans hg
        · exact hcov o ho2 hinb hne hadjq
    · -- the guard fails: the head step is a no-op
      have hstepeq : fillStep fuel bg row col s off = s := by
        simp only [fillStep]
        rw [if_neg hguard]
      rw [hstepeq]
      obtain ⟨hinv, hpers, hcov⟩ := ih hltail s hs
      refine ⟨hinv, hpers, ?_⟩
      intro o ho hinb hne hadjq
      rcases List.mem_cons.mp ho with rfl | ho2
      · have hinb2 : inGrid s.grid (row + o.1) (col + o.2) :=
          (inGrid_of_dims hs.rows_eq hs.cols_eq).mpr hinb
        have hch : s.grid.state (row + o.1) (col + o.2) ≠
            st.grid.state (row + o.1) (col + o.2) := by
          intro hcon
          exact hguard ⟨hinb2, hcon.trans hadjq⟩
        have hgr := (hs.frame ⟨row + o.1, col + o.2⟩ hch).2
        exact (hpers ⟨row + o.1, col + o.2⟩ hch).trans hgr
      · exact hcov o ho2 hinb hne hadjq

theorem fillStart_grid (bg : Nat) (st : FillState) (row col : Int) :
    (fillStart bg st row col).grid = setCell st.grid row col (PixelState.grouped bg) := rfl

/-- Specification of `recursiveSearchForAdjacentPixels`: with enough fuel
(the current number of Adjacent cells suffices) and an in-bounds Adjacent
entry cell, the flood fill recolors exactly the 8-connected Adjacent
component of the entry cell and accumulates its cardinality and
coordinate sums; the assert flag is untouched. -/
theorem fill_spec : ∀ (fuel bg : Nat) (st : FillState) (row col : Int),
    inGrid st.grid row col → st.grid.state row col = PixelState.adjacent →
    adjCount st.grid ≤ fuel →
    FillOut st row col bg (floodFill fuel bg st row col) := by
  intro fuel
  induction fuel with
  | zero =>
    intro bg st row col hin hadj hfuel
    have := adjCount_pos (show okCell st.grid (row, col) from ⟨hin, hadj⟩)
    omega
  | succ fuel ihfuel =>
    intro bg st row col hin hadj hfuel
    rw [floodFill_succ, if_pos hadj]
    have hdiff0 : diffF st.grid (fillStart bg st row col).grid =
        {((row, col) : Int × Int)} := by
      rw [fillStart_grid]
      exact diffF_setCell hin (by rw [hadj]; simp)
    have hcell0 : ∀ p : Int × Int,
        (fillStart bg st row col).grid.state p.1 p.2 ≠ st.grid.state p.1 p.2 →
        p = ((row, col) : Int × Int) := by
      intro p hch
      by_contra hp
      rw [fillStart_grid, setCell_state_of_ne _ _ _ _ _ _
        (fun hand => hp (Prod.ext hand.1 hand.2))] at hch
      exact hch rfl
    have hInv0 : FoldInv st row col bg (fillStart bg st row col) :=
      { rows_eq := rfl
        cols_eq := rfl
        ok_eq := rfl
        frame := by
          intro p hch
          obtain rfl := hcell0 p hch
          exact ⟨hadj, setCell_state_self _ _ _ _⟩
        entry := setCell_state_self _ _ _ _
        sound := by
          intro p hch
          obtain rfl := hcell0 p hch
          exact Reach.refl ⟨hin, hadj⟩
        closed := by
          intro p hch hpne
          exact absurd (hcell0 p hch) hpne
        cnt_eq := by
          rw [hdiff0, Finset.card_singleton]
          rfl
        rowSum_eq := by
          rw [hdiff0, Finset.sum_singleton]
          rfl
        colSum_eq := by
          rw [hdiff0, Finset.sum_singleton]
          rfl
        adj_lt := by
          have h := adjCount_setCell (show okCell st.grid (row, col) from ⟨hin, hadj⟩)
            (show PixelState.grouped bg ≠ PixelState.adjacent by simp)
          have h2 : adjCount (fillStart bg st row col).grid + 1 = adjCount st.grid := h
          omega }
    obtain ⟨hinv, hpers, hcov⟩ := fillFold_inv fuel bg st row col hin hadj
      (fun st2 r c h1 h2 h3 => ihfuel bg st2 r c h1 h2 h3) hfuel offsets
      (fun off hoff => (mem_offsets_iff off).mp hoff) (fillStart bg st row col) hInv0
    refine
      { rows_eq := hinv.rows_eq
        cols_eq := hinv.cols_eq
        ok_eq := hinv.ok_eq
        changed_group := hinv.frame
        changed_reach := hinv.sound
        cnt_eq := hinv.cnt_eq
        rowSum_eq := hinv.rowSum_eq
        colSum_eq := hinv.colSum_eq
        adj_lt := hinv.adj_lt
        reach_changed := ?_ }
    intro p hp
    induction hp with
    | refl h => exact hinv.entry
    | tail b c hb hstep hokc ihb =>
      by_cases hc : c = ((row, col) : Int × Int)
      · rw [hc]
        exact hinv.entry
      · by_cases hb0 : b = ((row, col) : Int × Int)
        · subst hb0
          have hoff2 : ((c.1 - row, c.2 - col) : Int × Int) ∈ offsets :=
            kingStep_mem_offsets hstep
          have hcv := hcov (c.1 - row, c.2 - col) hoff2
          dsimp only at hcv
          have h1 : row + (c.1 - row) = c.1 := by ring
          have h2 : col + (c.2 - col) = c.2 := by ring
          rw [h1, h2] at hcv
          exact hcv hokc.1 hc hokc.2
        · have hbch : (offsets.foldl (fillStep fuel bg row col)
              (fillStart bg st row col)).grid.state b.1 b.2 ≠
                st.grid.state b.1 b.2 := by
            rw [ihb, hb.okCell_right.2]
            simp
          exact hinv.closed b hbch hb0 c hstep hokc.1 hc hokc.2

/-! ## The grouping scan -/

/-- The fuel `rows * cols` used by the embedded scan always dominates the
number of Adjacent cells, so the flood fill never exhausts it. -/
theorem adjCount_le (g : Grid) : adjCount g ≤ g.rows * g.cols := by
  have h1 : adjCount g ≤ (cellFinset g).card := Finset.card_filter_le _ _
  have h2 : (cellFinset g).card = g.rows * g.cols := by
    rw [cellFinset, Finset.card_product, Int.card_Icc, Int.card_Icc,
      show (g.rows : Int) - 1 + 1 - 0 = (g.rows : Int) by ring,
      show (g.cols : Int) - 1 + 1 - 0 = (g.cols : Int) by ring,
      Int.toNat_natCast, Int.toNat_natCast]
  omega

theorem scanStep_not_adjacent {s : HealerState} {cell : Int × Int}
    (h : s.pixels.state cell.1 cell.2 ≠ PixelState.adjacent) :
    scanStep s cell = s := by
  unfold scanStep
  rw [if_neg h]

/-- The fill state the scan passes to the flood fill: zeroed accumulators
over the current grid. -/
def scanStart (s : HealerState) : FillState :=
  { grid := s.pixels, centroidCount := 0, rowCentroidSum := 0,
    colCentroidSum := 0, ok := s.ok }

/-- The flood-fill call made by the scan at `cell`. -/
def scanFill (s : HealerState) (cell : Int × Int) : FillState :=
  floodFill (s.pixels.rows * s.pixels.cols) s.boundaryGroupNext (scanStart s)
    cell.1 cell.2

theorem scanStart_grid (s : HealerState) : (scanStart s).grid = s.pixels := rfl

theorem scanStart_ok (s : HealerState) : (scanStart s).ok = s.ok := rfl

/-- When the scan hits a still-Adjacent in-bounds cell, the flood fill it
launches satisfies the fill specification, its member count is positive,
and the step records exactly one new region under the current group
number. -/
theorem scanStep_adjacent {s : HealerState} {cell : Int × Int}
    (hinb : inGrid s.pixels cell.1 cell.2)
    (h : s.pixels.state cell.1 cell.2 = PixelState.adjacent) :
    FillOut (scanStart s) cell.1 cell.2 s.boundaryGroupNext (scanFill s cell) ∧
      0 < (scanFill s cell).centroidCount ∧
      scanStep s cell =
        { pixels := (scanFill s cell).grid
          boundaryGroupNext := s.boundaryGroupNext + 1
          regions := s.regions ++
            [{ boundaryGroup := s.boundaryGroupNext
               centroid := ((scanFill s cell).rowCentroidSum /
                   ((scanFill s cell).centroidCount : ℚ),
                 (scanFill s cell).colCentroidSum /
                   ((scanFill s cell).centroidCount : ℚ))
               pixel := cell }]
          ok := (scanFill s cell).ok } := by
  have FO : FillOut (scanStart s) cell.1 cell.2 s.boundaryGroupNext (scanFill s cell) :=
    fill_spec (s.pixels.rows * s.pixels.cols) s.boundaryGroupNext (scanStart s)
      cell.1 cell.2 hinb h (adjCount_le s.pixels)
  have hcellD : cell ∈ diffF s.pixels (scanFill s cell).grid := by
    refine mem_diffF.mpr ⟨hinb, ?_⟩
    rw [FO.reach_changed cell (Reach.refl ⟨hinb, h⟩), h]
    simp
  have hcnt : 0 < (scanFill s cell).centroidCount := by
    rw [FO.cnt_eq]
    have := Finset.card_pos.mpr ⟨cell, hcellD⟩
    simp only [scanStart]
    omega
  refine ⟨FO, hcnt, ?_⟩
  unfold scanStep
  rw [if_pos h]
  rw [show (floodFill (s.pixels.rows * s.pixels.cols) s.boundaryGroupNext
    { grid := s.pixels, centroidCount := 0, rowCentroidSum := 0,
      colCentroidSum := 0, ok := s.ok } cell.1 cell.2) = scanFill s cell from rfl]
  rw [if_pos hcnt]

/-- Basic invariant of the grouping scan, relative to the original grid
`G0`, the initial next group number `n0`, the initial region list `regs0`
and the initial assert flag `ok0`: dimensions and the flag are preserved,
cells change only from Adjacent to a group number allocated by this pass,
and the recorded regions extend the initial ones by consecutively numbered
groups, each of which marks at least one in-bounds cell. -/
structure ScanInvBasic (G0 : Grid) (n0 : Nat) (regs0 : List RegionInfo) (ok0 : Bool)
    (s : HealerState) : Prop where
  rows_eq : s.pixels.rows = G0.rows
  cols_eq : s.pixels.cols = G0.cols
  ok_eq : s.ok = ok0
  next_ge : n0 ≤ s.boundaryGroupNext
  frame : ∀ p : Int × Int, s.pixels.state p.1 p.2 ≠ G0.state p.1 p.2 →
    G0.state p.1 p.2 = PixelState.adjacent ∧ inGrid G0 p.1 p.2 ∧
      ∃ gid : Nat, n0 ≤ gid ∧ gid < s.boundaryGroupNext ∧
        s.pixels.state p.1 p.2 = PixelState.grouped gid
  regs : ∃ news : List RegionInfo, s.regions = regs0 ++ news ∧
    n0 + news.length = s.boundaryGroupNext ∧
    news.map (fun e => e.boundaryGroup) = List.range' n0 news.length ∧
    ∀ e ∈ news, ∃ q : Int × Int, inGrid G0 q.1 q.2 ∧
      s.pixels.state q.1 q.2 = PixelState.grouped e.boundaryGroup

/-- The scan fold preserves the basic invariant, never touches a
non-Adjacent cell, and leaves no processed cell Adjacent. -/
theorem scanFoldBasic (G0 : Grid) (n0 : Nat) (regs0 : List RegionInfo) (ok0 : Bool)
    (l : List (Int × Int)) (hlin : ∀ c ∈ l, inGrid G0 c.1 c.2)
    (s : HealerState) (hs : ScanInvBasic G0 n0 regs0 ok0 s) :
    ScanInvBasic G0 n0 regs0 ok0 (l.foldl scanStep s) ∧
      (∀ p : Int × Int, s.pixels.state p.1 p.2 ≠ PixelState.adjacent →
        (l.foldl scanStep s).pixels.state p.1 p.2 = s.pixels.state p.1 p.2) ∧
      (∀ p ∈ l, (l.foldl scanStep s).pixels.state p.1 p.2 ≠ PixelState.adjacent) := by
  induction l generalizing s with
  | nil => exact ⟨hs, fun p _ => rfl, by simp⟩
  | cons c l ih =>
    have hcin : inGrid G0 c.1 c.2 := hlin c (List.mem_cons_self _ _)
    have hlin2 : ∀ x ∈ l, inGrid G0 x.1 x.2 :=
      fun x hx => hlin x (List.mem_cons_of_mem _ hx)
    rw [List.foldl_cons]
    by_cases hc : s.pixels.state c.1 c.2 = PixelState.adjacent
    · obtain ⟨FO, hcnt, hstep⟩ := scanStep_adjacent
        ((inGrid_of_dims hs.rows_eq hs.cols_eq).mpr hcin) hc
      have FOrows : (scanFill s c).grid.rows = s.pixels.rows := FO.rows_eq
      have FOcols : (scanFill s c).grid.cols = s.pixels.cols := FO.cols_eq
      have FOok : (scanFill s c).ok = s.ok := FO.ok_eq
      have FOcg : ∀ p : Int × Int,
          (scanFill s c).grid.state p.1 p.2 ≠ s.pixels.state p.1 p.2 →
          s.pixels.state p.1 p.2 = PixelState.adjacent ∧
            (scanFill s c).grid.state p.1 p.2 =
              PixelState.grouped s.boundaryGroupNext :=
        fun p h => FO.changed_group p h
      have FOcr : ∀ p : Int × Int,
          (scanFill s c).grid.state p.1 p.2 ≠ s.pixels.state p.1 p.2 →
          Reach s.pixels (c.1, c.2) p :=
        fun p h => FO.changed_reach p h
      have FOrc : ∀ p : Int × Int, Reach s.pixels (c.1, c.2) p →
          (scanFill s c).grid.state p.1 p.2 =
            PixelState.grouped s.boundaryGroupNext :=
        fun p h => FO.reach_changed p h
      have hpers1 : ∀ p : Int × Int, s.pixels.state p.1 p.2 ≠ PixelState.adjacent →
          (scanFill s c).grid.state p.1 p.2 = s.pixels.state p.1 p.2 := by
        intro p hp
        by_contra hne
        exact hp (FOcg p hne).1
      have hcgr : (scanFill s c).grid.state c.1 c.2 =
          PixelState.grouped s.boundaryGroupNext :=
        FOrc c (Reach.refl ⟨(inGrid_of_dims hs.rows_eq hs.cols_eq).mpr hcin, hc⟩)
      rw [hstep]
      have hA : ScanInvBasic G0 n0 regs0 ok0
          { pixels := (scanFill s c).grid
            boundaryGroupNext := s.boundaryGroupNext + 1
            regions := s.regions ++
              [{ boundaryGroup := s.boundaryGroupNext
                 centroid := ((scanFill s c).rowCentroidSum /
                     ((scanFill s c).centroidCount : ℚ),
                   (scanFill s c).colCentroidSum /
                     ((scanFill s c).centroidCount : ℚ))
                 pixel := c }]
            ok := (scanFill s c).ok } :=
        { rows_eq := FOrows.trans hs.rows_eq
          cols_eq := FOcols.trans hs.cols_eq
          ok_eq := FOok.trans hs.ok_eq
          next_ge := le_trans hs.next_ge (Nat.le_succ _)
          frame := by
            intro p hch
            by_cases hch1 : (scanFill s c).grid.state p.1 p.2 = s.pixels.state p.1 p.2
            · obtain ⟨h1, h2, gid, h3, h4, h5⟩ := hs.frame p (by rw [← hch1]; exact hch)
              exact ⟨h1, h2, gid, h3, Nat.lt_succ_of_lt h4, by rw [hch1]; exact h5⟩
            · obtain ⟨hadj2, hgr2⟩ := FOcg p hch1
              have hG0 : G0.state p.1 p.2 = PixelState.adjacent := by
                by_cases hch0 : s.pixels.state p.1 p.2 = G0.state p.1 p.2
                · rw [← hch0]
                  exact hadj2
                · obtain ⟨-, -, gid, -, -, h5⟩ := hs.frame p hch0
                  rw [h5] at hadj2
                  exact absurd hadj2 (by simp)
              have hinp : inGrid G0 p.1 p.2 := by
                have hok := (FOcr p hch1).okCell_right.1
                exact (inGrid_of_dims hs.rows_eq hs.cols_eq).mp hok
              exact ⟨hG0, hinp, s.boundaryGroupNext, hs.next_ge, Nat.lt_succ_self _, hgr2⟩
          regs := by
            obtain ⟨news, hr1, hr2, hr3, hr4⟩ := hs.regs
            refine ⟨news ++
              [{ boundaryGroup := s.boundaryGroupNext
                 centroid := ((scanFill s c).rowCentroidSum /
                     ((scanFill s c).centroidCount : ℚ),
                   (scanFill s c).colCentroidSum /
                     ((scanFill s c).centroidCount : ℚ))
                 pixel := c }], ?_, ?_, ?_, ?_⟩
            · rw [hr1, List.append_assoc]
            · simp only [List.length_append, List.length_singleton]
              omega
            · rw [List.map_append, hr3, List.length_append, List.length_singleton]
              rw [List.range'_concat]
              simp only [List.map_cons, List.map_nil]
              have hlen : n0 + 1 * news.length = s.boundaryGroupNext := by omega
              rw [hlen]
            · intro e he
              rcases List.mem_append.mp he with he1 | he2
              · obtain ⟨q, hq1, hq2⟩ := hr4 e he1
                refine ⟨q, hq1, ?_⟩
                rw [hpers1 q (by rw [hq2]; simp)]
                exact hq2
              · rw [List.mem_singleton] at he2
                subst he2
                exact ⟨c, hcin, hcgr⟩ }
      obtain ⟨hinv, hpers, hclear⟩ := ih hlin2 _ hA
      refine ⟨hinv, ?_, ?_⟩
      · intro p hp
        have h1 := hpers1 p hp
        have h2 := hpers p (by rw [h1]; exact hp)
        exact h2.trans h1
      · intro p hp
        rcases List.mem_cons.mp hp with rfl | hp2
        · have hfin := hpers p (by rw [hcgr]; simp)
          rw [hfin, hcgr]
          simp
        · exact hclear p hp2
    · rw [scanStep_not_adjacent hc]
      obtain ⟨hinv, hpers, hclear⟩ := ih hlin2 s hs
      refine ⟨hinv, hpers, ?_⟩
      intro p hp
      rcases List.mem_cons.mp hp with rfl | hp2
      · rw [hpers p hc]
        exact hc
      · exact hclear p hp2

theorem mem_cellsRowMajor {rows cols : Nat} {p : Int × Int} :
    p ∈ cellsRowMajor rows cols ↔
      0 ≤ p.1 ∧ p.1 < (rows : Int) ∧ 0 ≤ p.2 ∧ p.2 < (cols : Int) := by
  obtain ⟨a, b⟩ := p
  simp [cellsRowMajor, Prod.ext_iff]
  constructor
  · rintro ⟨r, hr, c, hc, rfl, rfl⟩
    omega
  · rintro ⟨h1, h2, h3, h4⟩
    exact ⟨a.toNat, by omega, b.toNat, by omega, by omega, by omega⟩

/-- Summary of the basic behavior of GridHealer::groupContiguousAdjacentPixels
on an arbitrary healer state. -/
theorem groupBasic_spec (hs : HealerState) :
    ScanInvBasic hs.pixels hs.boundaryGroupNext hs.regions hs.ok
        (groupContiguousAdjacentPixels hs) ∧
      (∀ p : Int × Int, hs.pixels.state p.1 p.2 ≠ PixelState.adjacent →
        (groupContiguousAdjacentPixels hs).pixels.state p.1 p.2 =
          hs.pixels.state p.1 p.2) ∧
      (∀ p : Int × Int, inGrid hs.pixels p.1 p.2 →
        (groupContiguousAdjacentPixels hs).pixels.state p.1 p.2 ≠
          PixelState.adjacent) := by
  have hinv0 : ScanInvBasic hs.pixels hs.boundaryGroupNext hs.regions hs.ok hs :=
    { rows_eq := rfl
      cols_eq := rfl
      ok_eq := rfl
      next_ge := le_refl _
      frame := fun p hch => absurd rfl hch
      regs := ⟨[], by simp, by simp, by simp, by simp⟩ }
  obtain ⟨hinv, hpers, hclear⟩ := scanFoldBasic hs.pixels hs.boundaryGroupNext
    hs.regions hs.ok (cellsRowMajor hs.pixels.rows hs.pixels.cols)
    (fun c hc => mem_cellsRowMajor.mp hc) hs hinv0
  exact ⟨hinv, hpers, fun p hp => hclear p (mem_cellsRowMajor.mpr hp)⟩

/-- C10.  After groupContiguousAdjacentPixels no in-bounds cell is
Adjacent: every cell that was Adjacent carries a group number afterwards,
and every cell in any other state is untouched by the pass. -/
theorem claim_C10_grouping_clears (hs : HealerState) :
    (∀ p : Int × Int, inGrid hs.pixels p.1 p.2 →
        (groupContiguousAdjacentPixels hs).pixels.state p.1 p.2 ≠
          PixelState.adjacent) ∧
      (∀ p : Int × Int, inGrid hs.pixels p.1 p.2 →
        hs.pixels.state p.1 p.2 = PixelState.adjacent →
        ∃ gid : Nat, hs.boundaryGroupNext ≤ gid ∧
          (groupContiguousAdjacentPixels hs).pixels.state p.1 p.2 =
            PixelState.grouped gid) ∧
      (∀ p : Int × Int, hs.pixels.state p.1 p.2 ≠ PixelState.adjacent →
        (groupContiguousAdjacentPixels hs).pixels.state p.1 p.2 =
          hs.pixels.state p.1 p.2) := by
  obtain ⟨hinv, hpers, hclear⟩ := groupBasic_spec hs
  refine ⟨hclear, ?_, hpers⟩
  intro p hinb hadj
  have hne : (groupContiguousAdjacentPixels hs).pixels.state p.1 p.2 ≠
      hs.pixels.state p.1 p.2 := by
    rw [hadj]
    exact hclear p hinb
  obtain ⟨-, -, gid, h3, -, h5⟩ := hinv.frame p hne
  exact ⟨gid, h3, h5⟩

set_option maxRecDepth 8000 in
/-- Witness for C10 on a concrete 5×5 grid with Adjacent cells at (0, 0)
and (0, 4). -/
theorem claim_C10_grouping_clears_witness :
    inGrid (Grid.mk 5 5 (fun r c =>
        if (r = 0 ∧ c = 0) ∨ (r = 0 ∧ c = 4) then PixelState.adjacent
        else PixelState.background)) 0 0 ∧
      (Grid.mk 5 5 (fun r c =>
        if (r = 0 ∧ c = 0) ∨ (r = 0 ∧ c = 4) then PixelState.adjacent
        else PixelState.background)).state 0 0 = PixelState.adjacent ∧
      ∃ gid : Nat, 100 ≤ gid ∧
        (groupContiguousAdjacentPixels
          (HealerState.mk (Grid.mk 5 5 (fun r c =>
            if (r = 0 ∧ c = 0) ∨ (r = 0 ∧ c = 4) then PixelState.adjacent
            else PixelState.background)) 100 [] true)).pixels.state 0 0 =
          PixelState.grouped gid := by
  refine ⟨by decide, by decide, ?_⟩
  exact (claim_C10_grouping_clears
    (HealerState.mk (Grid.mk 5 5 (fun r c =>
      if (r = 0 ∧ c = 0) ∨ (r = 0 ∧ c = 4) then PixelState.adjacent
      else PixelState.background)) 100 [] true)).2.1 (0, 0) (by decide) (by decide)

/-- C6.  Under the caller guards of the grouping scan the flood fill's
entry assertion never fires and the fuel never runs out (`ok` stays true),
every allocated group number is recorded as a region (the member count
after each fill is positive, so the recording guard is always taken), and
every recorded region marks at least one in-bounds cell (no empty
regions). -/
theorem claim_C6_assert_unreachable (hs : HealerState) (hok : hs.ok = true) :
    (groupContiguousAdjacentPixels hs).ok = true ∧
      hs.boundaryGroupNext +
          ((groupContiguousAdjacentPixels hs).regions.length - hs.regions.length) =
        (groupContiguousAdjacentPixels hs).boundaryGroupNext ∧
      ∀ e ∈ (groupContiguousAdjacentPixels hs).regions.drop hs.regions.length,
        ∃ q : Int × Int, inGrid hs.pixels q.1 q.2 ∧
          (groupContiguousAdjacentPixels hs).pixels.state q.1 q.2 =
            PixelState.grouped e.boundaryGroup := by
  obtain ⟨hinv, -, -⟩ := groupBasic_spec hs
  obtain ⟨news, hr1, hr2, -, hr4⟩ := hinv.regs
  refine ⟨hinv.ok_eq.trans hok, ?_, ?_⟩
  · rw [hr1, List.length_append]
    omega
  · intro e he
    rw [hr1, List.drop_left] at he
    exact hr4 e he

/-- Witness for C6 on the concrete 5×5 two-region grid. -/
theorem claim_C6_assert_unreachable_witness :
    (HealerState.mk (Grid.mk 5 5 (fun r c =>
        if (r = 0 ∧ c = 0) ∨ (r = 0 ∧ c = 4) then PixelState.adjacent
        else PixelState.background)) 100 [] true).ok = true ∧
      (groupContiguousAdjacentPixels
        (HealerState.mk (Grid.mk 5 5 (fun r c =>
          if (r = 0 ∧ c = 0) ∨ (r = 0 ∧ c = 4) then PixelState.adjacent
          else PixelState.background)) 100 [] true)).ok = true := by
  refine ⟨rfl, ?_⟩
  exact (claim_C6_assert_unreachable
    (HealerState.mk (Grid.mk 5 5 (fun r c =>
      if (r = 0 ∧ c = 0) ∨ (r = 0 ∧ c = 4) then PixelState.adjacent
      else PixelState.background)) 100 [] true) rfl).1

/-! ## C4: fate of Adjacent cells across heal -/

theorem drawLine_heal_frame (aF aT : Int × Int) (gi : Grid × Image) (p : Int × Int)
    (h : (drawLine aF aT gi).1.state p.1 p.2 ≠ gi.1.state p.1 p.2) :
    (drawLine aF aT gi).1.state p.1 p.2 = PixelState.healed := by
  unfold drawLine at h ⊢
  by_cases hcount : 1 < lineCount aF aT
  · rw [if_pos hcount] at h ⊢
    rw [lineFold_grid_state] at h ⊢
    by_cases hex : ∃ i ∈ List.range (lineCount aF aT).toNat, linePixel aF aT i = p
    · rw [if_pos hex]
    · rw [if_neg hex] at h
      exact absurd rfl h
  · rw [if_neg hcount] at h
    exact absurd rfl h

theorem pairStep_heal_frame (t2 : ℚ) (gi : Grid × Image) (pr : RegionInfo × RegionInfo)
    (p : Int × Int) (h : (pairStep t2 gi pr).1.state p.1 p.2 ≠ gi.1.state p.1 p.2) :
    (pairStep t2 gi pr).1.state p.1 p.2 = PixelState.healed := by
  simp only [pairStep] at h ⊢
  by_cases hlt : (pr.1.centroid.1 - pr.2.centroid.1) * (pr.1.centroid.1 - pr.2.centroid.1) +
      (pr.1.centroid.2 - pr.2.centroid.2) * (pr.1.centroid.2 - pr.2.centroid.2) < t2
  · rw [if_pos hlt] at h ⊢
    exact drawLine_heal_frame _ _ _ _ h
  · rw [if_neg hlt] at h
    exact absurd rfl h

theorem pairFold_heal_frame (t2 : ℚ) (l : List (RegionInfo × RegionInfo))
    (gi : Grid × Image) (p : Int × Int)
    (h : (l.foldl (pairStep t2) gi).1.state p.1 p.2 ≠ gi.1.state p.1 p.2) :
    (l.foldl (pairStep t2) gi).1.state p.1 p.2 = PixelState.healed := by
  induction l generalizing gi with
  | nil => exact absurd rfl h
  | cons pr l ih =>
    rw [List.foldl_cons] at h ⊢
    by_cases h1 : (l.foldl (pairStep t2) (pairStep t2 gi pr)).1.state p.1 p.2 =
        (pairStep t2 gi pr).1.state p.1 p.2
    · rw [h1] at h ⊢
      exact pairStep_heal_frame t2 gi pr p h
    · exact ih (pairStep t2 gi pr) h1

theorem connect_heal_frame (t : ℚ) (regions : List RegionInfo) (gi : Grid × Image)
    (p : Int × Int)
    (h : (connectCloseGroups t regions gi).1.state p.1 p.2 ≠ gi.1.state p.1 p.2) :
    (connectCloseGroups t regions gi).1.state p.1 p.2 = PixelState.healed := by
  rw [connectCloseGroups, connectOuter_eq_fold] at h ⊢
  exact pairFold_heal_frame _ _ _ p h

theorem heal_pixels_eq (closeDistance : ℚ) (hs : HealerState) (img : Image) :
    (heal closeDistance hs img).1.pixels =
      (connectCloseGroups closeDistance (groupContiguousAdjacentPixels hs).regions
        ((groupContiguousAdjacentPixels hs).pixels, img)).1 := rfl

/-- C4.  Every in-bounds cell that is Adjacent immediately before heal is
afterwards either carrying a group number or Healed — never Background or
Foreground. -/
theorem claim_C4_adjacent_after_heal (closeDistance : ℚ) (hs : HealerState)
    (img : Image) (p : Int × Int) (hinb : inGrid hs.pixels p.1 p.2)
    (hadj : hs.pixels.state p.1 p.2 = PixelState.adjacent) :
    ((∃ gid : Nat, (heal closeDistance hs img).1.pixels.state p.1 p.2 =
          PixelState.grouped gid) ∨
        (heal closeDistance hs img).1.pixels.state p.1 p.2 = PixelState.healed) ∧
      (heal closeDistance hs img).1.pixels.state p.1 p.2 ≠ PixelState.background ∧
      (heal closeDistance hs img).1.pixels.state p.1 p.2 ≠ PixelState.foreground := by
  obtain ⟨hinv, hpers, hclear⟩ := groupBasic_spec hs
  have hne : (groupContiguousAdjacentPixels hs).pixels.state p.1 p.2 ≠
      hs.pixels.state p.1 p.2 := by
    rw [hadj]
    exact hclear p hinb
  obtain ⟨-, -, gid, -, -, h5⟩ := hinv.frame p hne
  have hmain : (∃ gid : Nat, (heal closeDistance hs img).1.pixels.state p.1 p.2 =
      PixelState.grouped gid) ∨
      (heal closeDistance hs img).1.pixels.state p.1 p.2 = PixelState.healed := by
    rw [heal_pixels_eq]
    by_cases hch : (connectCloseGroups closeDistance
        (groupContiguousAdjacentPixels hs).regions
        ((groupContiguousAdjacentPixels hs).pixels, img)).1.state p.1 p.2 =
        (groupContiguousAdjacentPixels hs).pixels.state p.1 p.2
    · exact Or.inl ⟨gid, hch.trans h5⟩
    · exact Or.inr (connect_heal_frame _ _ _ p hch)
  refine ⟨hmain, ?_, ?_⟩
  · rcases hmain with ⟨gid2, hg⟩ | hg <;> rw [hg] <;> simp
  · rcases hmain with ⟨gid2, hg⟩ | hg <;> rw [hg] <;> simp

set_option maxRecDepth 8000 in
/-- Witness for C4 on the concrete 5×5 two-region grid at threshold 10. -/
theorem claim_C4_adjacent_after_heal_witness :
    inGrid (Grid.mk 5 5 (fun r c =>
        if (r = 0 ∧ c = 0) ∨ (r = 0 ∧ c = 4) then PixelState.adjacent
        else PixelState.background)) 0 0 ∧
      (Grid.mk 5 5 (fun r c =>
        if (r = 0 ∧ c = 0) ∨ (r = 0 ∧ c = 4) then PixelState.adjacent
        else PixelState.background)).state 0 0 = PixelState.adjacent ∧
      (heal 10 (HealerState.mk (Grid.mk 5 5 (fun r c =>
          if (r = 0 ∧ c = 0) ∨ (r = 0 ∧ c = 4) then PixelState.adjacent
          else PixelState.background)) 100 [] true)
        (fun _ => false)).1.pixels.state 0 0 ≠ PixelState.background := by
  refine ⟨by decide, by decide, ?_⟩
  exact (claim_C4_adjacent_after_heal 10
    (HealerState.mk (Grid.mk 5 5 (fun r c =>
      if (r = 0 ∧ c = 0) ∨ (r = 0 ∧ c = 4) then PixelState.adjacent
      else PixelState.background)) 100 [] true)
    (fun _ => false) (0, 0) (by decide) (by decide)).2.1

/-! ## C3: full correctness of the grouping pass -/

/-- Row-major (scan) order on cells, non-strict. -/
def rowMajorLE (p q : Int × Int) : Prop :=
  p.1 < q.1 ∨ (p.1 = q.1 ∧ p.2 ≤ q.2)

/-- Row-major (scan) order on cells, strict. -/
def rowMajorLT (p q : Int × Int) : Prop :=
  p.1 < q.1 ∨ (p.1 = q.1 ∧ p.2 < q.2)

theorem rowMajorLE_refl (p : Int × Int) : rowMajorLE p p := by
  unfold rowMajorLE
  omega

theorem rowMajorLE_or_LT (p q : Int × Int) : rowMajorLE p q ∨ rowMajorLT q p := by
  unfold rowMajorLE rowMajorLT
  omega

theorem rowMajorLT_asymm {p q : Int × Int} (h1 : rowMajorLT p q) (h2 : rowMajorLT q p) :
    False := by
  unfold rowMajorLT at h1 h2
  omega

theorem rowMajorLT_irrefl (p : Int × Int) (h : rowMajorLT p p) : False := by
  unfold rowMajorLT at h
  omega

theorem rowMajorLT_trans {p q r : Int × Int} (h1 : rowMajorLT p q)
    (h2 : rowMajorLT q r) : rowMajorLT p r := by
  unfold rowMajorLT at h1 h2 ⊢
  omega

/-- The in-bounds cells currently marked with group `gid`. -/
def memberF (g : Grid) (gid : Nat) : Finset (Int × Int) :=
  (cellFinset g).filter (fun p => g.state p.1 p.2 = PixelState.grouped gid)

theorem mem_memberF {g : Grid} {gid : Nat} {p : Int × Int} :
    p ∈ memberF g gid ↔ inGrid g p.1 p.2 ∧ g.state p.1 p.2 = PixelState.grouped gid := by
  rw [memberF, Finset.mem_filter, mem_cellFinset]

/-- Everything GridHealer records about one region, relative to the
original grid `G0` and the current grid `g`: the anchor is an Adjacent
cell of `G0`; the cells marked with the region's group are exactly the
8-connected Adjacent component of the anchor in `G0`; the stored centroid
is the arithmetic mean of the members' coordinates; and the anchor is the
row-major-first member. -/
structure RegionSpec (G0 : Grid) (g : Grid) (e : RegionInfo) : Prop where
  anchor_ok : okCell G0 e.pixel
  members : ∀ q : Int × Int,
    g.state q.1 q.2 = PixelState.grouped e.boundaryGroup ↔ Reach G0 e.pixel q
  centroid_row : e.centroid.1 =
    (memberF g e.boundaryGroup).sum (fun q => (q.1 : ℚ)) /
      ((memberF g e.boundaryGroup).card : ℚ)
  centroid_col : e.centroid.2 =
    (memberF g e.boundaryGroup).sum (fun q => (q.2 : ℚ)) /
      ((memberF g e.boundaryGroup).card : ℚ)
  anchor_min : ∀ q : Int × Int, Reach G0 e.pixel q → rowMajorLE e.pixel q

/-- Strong invariant of the grouping scan on a grid with no pre-existing
group marks: in addition to the frame conditions, the changed set is a
union of whole components, and every recorded region satisfies
`RegionSpec`, with consecutively allocated group numbers. -/
structure ScanInv (G0 : Grid) (n0 : Nat) (regs0 : List RegionInfo) (s : HealerState) :
    Prop where
  rows_eq : s.pixels.rows = G0.rows
  cols_eq : s.pixels.cols = G0.cols
  next_ge : n0 ≤ s.boundaryGroupNext
  frame : ∀ p : Int × Int, s.pixels.state p.1 p.2 ≠ G0.state p.1 p.2 →
    G0.state p.1 p.2 = PixelState.adjacent ∧ inGrid G0 p.1 p.2 ∧
      ∃ gid : Nat, n0 ≤ gid ∧ gid < s.boundaryGroupNext ∧
        s.pixels.state p.1 p.2 = PixelState.grouped gid
  comp_closed : ∀ p q : Int × Int, s.pixels.state p.1 p.2 ≠ G0.state p.1 p.2 →
    Reach G0 p q → s.pixels.state q.1 q.2 ≠ G0.state q.1 q.2
  regs : ∃ news : List RegionInfo, s.regions = regs0 ++ news ∧
    n0 + news.length = s.boundaryGroupNext ∧
    news.map (fun e => e.boundaryGroup) = List.range' n0 news.length ∧
    ∀ e ∈ news, RegionSpec G0 s.pixels e

/-- A cell ok in the current scan grid is ok in the original grid. -/
theorem ScanInv.okCell_to_orig {G0 : Grid} {n0 : Nat} {regs0 : List RegionInfo}
    {s : HealerState} (hs : ScanInv G0 n0 regs0 s) :
    ∀ x : Int × Int, okCell s.pixels x → okCell G0 x := by
  rintro x ⟨hx1, hx2⟩
  refine ⟨(inGrid_of_dims hs.rows_eq hs.cols_eq).mp hx1, ?_⟩
  by_cases hch : s.pixels.state x.1 x.2 = G0.state x.1 x.2
  · rw [← hch]
    exact hx2
  · obtain ⟨-, -, gid, -, -, h5⟩ := hs.frame x hch
    rw [hx2] at h5
    exact absurd h5 (by simp)

theorem cellsRowMajor_succ (rows cols : Nat) :
    cellsRowMajor (rows + 1) cols =
      cellsRowMajor rows cols ++
        (List.range cols).map (fun (c : Nat) => ((rows : Int), (c : Int))) := by
  unfold cellsRowMajor
  rw [List.range_succ, List.flatMap_append, List.flatMap_cons, List.flatMap_nil,
    List.append_nil]

theorem cellsRowMajor_sorted (rows cols : Nat) :
    (cellsRowMajor rows cols).Pairwise rowMajorLT := by
  induction rows with
  | zero => simp [cellsRowMajor]
  | succ rows ih =>
    rw [cellsRowMajor_succ, List.pairwise_append]
    refine ⟨ih, ?_, ?_⟩
    · exact List.Pairwise.map (fun c : Nat => ((rows : Int), (c : Int)))
        (fun a b hab =>
          show rowMajorLT ((rows : Int), (a : Int)) ((rows : Int), (b : Int)) from
            Or.inr ⟨rfl, show (a : Int) < (b : Int) by exact_mod_cast hab⟩)
        (List.pairwise_lt_range cols)
    · intro a ha b hb
      have ha2 := mem_cellsRowMajor.mp ha
      obtain ⟨c, -, rfl⟩ := List.mem_map.mp hb
      exact Or.inl (by simpa using ha2.2.1)

/-- The scan fold preserves the strong invariant, provided the original
grid has no pre-existing group marks and the remaining scan cells are in
bounds, row-major sorted, and cover every still-Adjacent cell. -/
theorem scanFoldFull (G0 : Grid) (n0 : Nat) (regs0 : List RegionInfo)
    (hclean : ∀ (p : Int × Int) (gid : Nat), G0.state p.1 p.2 ≠ PixelState.grouped gid) :
    ∀ l : List (Int × Int), (∀ c ∈ l, inGrid G0 c.1 c.2) →
    l.Pairwise rowMajorLT →
    ∀ s : HealerState, ScanInv G0 n0 regs0 s →
    (∀ q : Int × Int, okCell G0 q →
      q ∈ l ∨ s.pixels.state q.1 q.2 ≠ PixelState.adjacent) →
    ScanInv G0 n0 regs0 (l.foldl scanStep s) := by
  intro l
  induction l with
  | nil =>
    intro _ _ s hs _
    exact hs
  | cons c l ih =>
    intro hlin hsorted s hs hcover
    have hcin : inGrid G0 c.1 c.2 := hlin c (List.mem_cons_self _ _)
    have hlin2 : ∀ x ∈ l, inGrid G0 x.1 x.2 :=
      fun x hx => hlin x (List.mem_cons_of_mem _ hx)
    have hsorted2 : l.Pairwise rowMajorLT := (List.pairwise_cons.mp hsorted).2
    have hcfirst : ∀ x ∈ l, rowMajorLT c x := (List.pairwise_cons.mp hsorted).1
    rw [List.foldl_cons]
    by_cases hc : s.pixels.state c.1 c.2 = PixelState.adjacent
    · -- the scan launches a flood fill at c
      obtain ⟨FO, hcnt, hstep⟩ := scanStep_adjacent
        ((inGrid_of_dims hs.rows_eq hs.cols_eq).mpr hcin) hc
      have FOrows : (scanFill s c).grid.rows = s.pixels.rows := FO.rows_eq
      have FOcols : (scanFill s c).grid.cols = s.pixels.cols := FO.cols_eq
      have FOcg : ∀ p : Int × Int,
          (scanFill s c).grid.state p.1 p.2 ≠ s.pixels.state p.1 p.2 →
          s.pixels.state p.1 p.2 = PixelState.adjacent ∧
            (scanFill s c).grid.state p.1 p.2 =
              PixelState.grouped s.boundaryGroupNext :=
        fun p h => FO.changed_group p h
      have FOcr : ∀ p : Int × Int,
          (scanFill s c).grid.state p.1 p.2 ≠ s.pixels.state p.1 p.2 →
          Reach s.pixels c p :=
        fun p h => FO.changed_reach p h
      have FOrc : ∀ p : Int × Int, Reach s.pixels c p →
          (scanFill s c).grid.state p.1 p.2 =
            PixelState.grouped s.boundaryGroupNext :=
        fun p h => FO.reach_changed p h
      have FOcnt : (scanFill s c).centroidCount =
          (diffF s.pixels (scanFill s c).grid).card := by
        simpa [scanStart] using FO.cnt_eq
      have FOrsum : (scanFill s c).rowCentroidSum =
          (diffF s.pixels (scanFill s c).grid).sum (fun q => (q.1 : ℚ)) := by
        simpa [scanStart] using FO.rowSum_eq
      have FOcsum : (scanFill s c).colCentroidSum =
          (diffF s.pixels (scanFill s c).grid).sum (fun q => (q.2 : ℚ)) := by
        simpa [scanStart] using FO.colSum_eq
      have hpers1 : ∀ p : Int × Int, s.pixels.state p.1 p.2 ≠ PixelState.adjacent →
          (scanFill s c).grid.state p.1 p.2 = s.pixels.state p.1 p.2 := by
        intro p hp
        by_contra hne
        exact hp (FOcg p hne).1
      have hG0c : G0.state c.1 c.2 = PixelState.adjacent := by
        by_cases hch : s.pixels.state c.1 c.2 = G0.state c.1 c.2
        · rw [← hch]
          exact hc
        · obtain ⟨-, -, gid, -, -, h5⟩ := hs.frame c hch
          exact absurd (h5.symm.trans hc) (by simp)
      have hokc : okCell G0 c := ⟨hcin, hG0c⟩
      have hcunch : s.pixels.state c.1 c.2 = G0.state c.1 c.2 := by
        rw [hc, hG0c]
      have hcomp_unch : ∀ x : Int × Int, Reach G0 c x →
          s.pixels.state x.1 x.2 = G0.state x.1 x.2 := by
        intro x hx
        by_contra hch
        exact absurd hcunch (hs.comp_closed x c hch hx.symm)
      have t1 : ∀ q : Int × Int, Reach G0 c q → Reach s.pixels c q :=
        fun q hq => Reach.congr hs.rows_eq hs.cols_eq hcomp_unch hq
      have t2 : ∀ q : Int × Int, Reach s.pixels c q → Reach G0 c q :=
        fun q hq => hq.mono hs.okCell_to_orig
      have hfillchar : ∀ q : Int × Int,
          ((scanFill s c).grid.state q.1 q.2 ≠ s.pixels.state q.1 q.2 ↔
            Reach G0 c q) := by
        intro q
        constructor
        · intro h
          exact t2 q (FOcr q h)
        · intro h
          rw [FOrc q (t1 q h), (hcomp_unch q h).trans rfl]
          rw [show G0.state q.1 q.2 = PixelState.adjacent from h.okCell_right.2]
          simp
      have hnewmem : ∀ q : Int × Int,
          ((scanFill s c).grid.state q.1 q.2 =
              PixelState.grouped s.boundaryGroupNext ↔ Reach G0 c q) := by
        intro q
        constructor
        · intro h
          by_cases hch : (scanFill s c).grid.state q.1 q.2 = s.pixels.state q.1 q.2
          · exfalso
            have hsq : s.pixels.state q.1 q.2 =
                PixelState.grouped s.boundaryGroupNext := hch.symm.trans h
            have hch2 : s.pixels.state q.1 q.2 ≠ G0.state q.1 q.2 := by
              intro hcon
              exact hclean q s.boundaryGroupNext (hcon.symm.trans hsq)
            obtain ⟨-, -, gid, -, hlt, h5⟩ := hs.frame q hch2
            have : s.boundaryGroupNext = gid :=
              PixelState.grouped.inj (hsq.symm.trans h5)
            omega
          · exact (hfillchar q).mp hch
        · intro h
          exact FOrc q (t1 q h)
      have hDmem : memberF (scanFill s c).grid s.boundaryGroupNext =
          diffF s.pixels (scanFill s c).grid := by
        ext q
        rw [mem_memberF, mem_diffF]
        constructor
        · rintro ⟨hq1, hq2⟩
          refine ⟨(inGrid_of_dims FOrows FOcols).mp hq1, ?_⟩
          have hr := (hnewmem q).mp hq2
          rw [hq2, (hcomp_unch q hr).trans rfl,
            show G0.state q.1 q.2 = PixelState.adjacent from hr.okCell_right.2]
          simp
        · rintro ⟨hq1, hq2⟩
          exact ⟨(inGrid_of_dims FOrows FOcols).mpr hq1, (FOcg q hq2).2⟩
      obtain ⟨news, hr1, hr2, hr3, hr4⟩ := hs.regs
      have hgid_lt : ∀ e ∈ news, e.boundaryGroup < s.boundaryGroupNext := by
        intro e he
        have hmm : e.boundaryGroup ∈ news.map (fun e => e.boundaryGroup) :=
          List.mem_map_of_mem _ he
        rw [hr3] at hmm
        have := List.mem_range'_1.mp hmm
        omega
      have hold_stab : ∀ gid : Nat, gid < s.boundaryGroupNext →
          ∀ q : Int × Int,
            ((scanFill s c).grid.state q.1 q.2 = PixelState.grouped gid ↔
              s.pixels.state q.1 q.2 = PixelState.grouped gid) := by
        intro gid hgid q
        by_cases hch : (scanFill s c).grid.state q.1 q.2 = s.pixels.state q.1 q.2
        · rw [hch]
        · obtain ⟨ha, hg⟩ := FOcg q hch
          rw [hg, ha]
          constructor
          · intro h
            exact absurd (PixelState.grouped.inj h) (by omega)
          · intro h
            exact absurd h (by simp)
      have hold_memF : ∀ gid : Nat, gid < s.boundaryGroupNext →
          memberF (scanFill s c).grid gid = memberF s.pixels gid := by
        intro gid hgid
        ext q
        rw [mem_memberF, mem_memberF, hold_stab gid hgid q,
          inGrid_of_dims FOrows FOcols]
      rw [hstep]
      refine ih hlin2 hsorted2 _ ?_ ?_
      · refine
          { rows_eq := FOrows.trans hs.rows_eq
            cols_eq := FOcols.trans hs.cols_eq
            next_ge := le_trans hs.next_ge (Nat.le_succ _)
            frame := ?_
            comp_closed := ?_
            regs := ?_ }
        · intro p hch
          by_cases hch1 : (scanFill s c).grid.state p.1 p.2 = s.pixels.state p.1 p.2
          · obtain ⟨h1, h2, gid, h3, h4, h5⟩ := hs.frame p (by rw [← hch1]; exact hch)
            exact ⟨h1, h2, gid, h3, Nat.lt_succ_of_lt h4, by rw [hch1]; exact h5⟩
          · have hreach := (hfillchar p).mp hch1
            exact ⟨hreach.okCell_right.2, hreach.okCell_right.1, s.boundaryGroupNext,
              hs.next_ge, Nat.lt_succ_self _, (hnewmem p).mpr hreach⟩
        · intro p q hch hpq
          by_cases hch1 : (scanFill s c).grid.state p.1 p.2 = s.pixels.state p.1 p.2
          · have hpch : s.pixels.state p.1 p.2 ≠ G0.state p.1 p.2 := by
              rw [← hch1]
              exact hch
            have hqch := hs.comp_closed p q hpch hpq
            have hq_nonadj : s.pixels.state q.1 q.2 ≠ PixelState.adjacent := by
              obtain ⟨-, -, gid, -, -, h5⟩ := hs.frame q hqch
              rw [h5]
              simp
            rw [hpers1 q hq_nonadj]
            exact hqch
          · have hreach := (hfillchar p).mp hch1
            rw [(hnewmem q).mpr (hreach.trans hpq)]
            intro hcon
            exact hclean q s.boundaryGroupNext hcon.symm
        · refine ⟨news ++
            [{ boundaryGroup := s.boundaryGroupNext
               centroid := ((scanFill s c).rowCentroidSum /
                   ((scanFill s c).centroidCount : ℚ),
                 (scanFill s c).colCentroidSum /
                   ((scanFill s c).centroidCount : ℚ))
               pixel := c }], ?_, ?_, ?_, ?_⟩
          · rw [hr1, List.append_assoc]
          · simp only [List.length_append, List.length_singleton]
            omega
          · rw [List.map_append, hr3, List.length_append, List.length_singleton,
              List.range'_concat]
            simp only [List.map_cons, List.map_nil]
            have hlen : n0 + 1 * news.length = s.boundaryGroupNext := by omega
            rw [hlen]
          · intro e he
            rcases List.mem_append.mp he with he1 | he2
            · -- an old region is untouched by this fill
              have hspec := hr4 e he1
              have hlt := hgid_lt e he1
              exact
                { anchor_ok := hspec.anchor_ok
                  members := fun q =>
                    (hold_stab e.boundaryGroup hlt q).trans (hspec.members q)
                  centroid_row := by
                    rw [hold_memF e.boundaryGroup hlt]
                    exact hspec.centroid_row
                  centroid_col := by
                    rw [hold_memF e.boundaryGroup hlt]
                    exact hspec.centroid_col
                  anchor_min := hspec.anchor_min }
            · rw [List.mem_singleton] at he2
              subst he2
              refine
                { anchor_ok := hokc
                  members := hnewmem
                  centroid_row := by
                    rw [hDmem, FOrsum, FOcnt]
                  centroid_col := by
                    rw [hDmem, FOcsum, FOcnt]
                  anchor_min := ?_ }
              intro q hq
              rcases rowMajorLE_or_LT c q with h | h
              · exact h
              · exfalso
                have hqok : okCell G0 q := hq.okCell_right
                rcases hcover q hqok with hmem | hnadj
                · rcases List.mem_cons.mp hmem with rfl | hmem2
                  · exact rowMajorLT_irrefl _ h
                  · exact rowMajorLT_asymm h (hcfirst q hmem2)
                · have hch : s.pixels.state q.1 q.2 ≠ G0.state q.1 q.2 := by
                    intro hcon
                    exact hnadj (hcon.trans hqok.2)
                  exact absurd hcunch (hs.comp_closed q c hch hq.symm)
      · intro q hq
        rcases hcover q hq with hmem | hnadj
        · rcases List.mem_cons.mp hmem with rfl | hmem2
          · right
            rw [FOrc q (Reach.refl
              ⟨(inGrid_of_dims hs.rows_eq hs.cols_eq).mpr hq.1, hc⟩)]
            simp
          · left
            exact hmem2
        · right
          rw [hpers1 q hnadj]
          exact hnadj
    · -- the scan skips c
      rw [scanStep_not_adjacent hc]
      refine ih hlin2 hsorted2 s hs ?_
      intro q hq
      rcases hcover q hq with hq1 | hq2
      · rcases List.mem_cons.mp hq1 with rfl | hq3
        · exact Or.inr hc
        · exact Or.inl hq3
      · exact Or.inr hq2

/-- A freshly constructed healer over grid `G0`: next group number at the
reserved base value, no recorded regions, no assertion failure. -/
def freshHealer (G0 : Grid) : HealerState :=
  { pixels := G0, boundaryGroupNext := BOUNDARY_GROUP_FIRST, regions := [], ok := true }

/-- C3.  On a fresh healer over a grid without pre-existing group marks,
after groupContiguousAdjacentPixels: the recorded group numbers are
consecutive, monotonically increasing integers starting at the reserved
base value, each unique; every recorded region satisfies `RegionSpec`
(anchor is the row-major-first member of its region, the cells marked
with its group are exactly the 8-connected Adjacent component of the
anchor, and the centroid is the arithmetic mean of the members); and
every maximal 8-connected set of Adjacent cells — given by any of its
cells — is recorded as exactly one region. -/
theorem claim_C3_grouping (G0 : Grid)
    (hclean : ∀ (p : Int × Int) (gid : Nat),
      G0.state p.1 p.2 ≠ PixelState.grouped gid) :
    ((groupContiguousAdjacentPixels (freshHealer G0)).regions.map
        (fun e => e.boundaryGroup) =
      List.range' BOUNDARY_GROUP_FIRST
        (groupContiguousAdjacentPixels (freshHealer G0)).regions.length) ∧
      (∀ e ∈ (groupContiguousAdjacentPixels (freshHealer G0)).regions,
        RegionSpec G0 (groupContiguousAdjacentPixels (freshHealer G0)).pixels e) ∧
      (∀ p : Int × Int, okCell G0 p →
        ∃! e : RegionInfo,
          e ∈ (groupContiguousAdjacentPixels (freshHealer G0)).regions ∧
            ∀ q : Int × Int,
              ((groupContiguousAdjacentPixels (freshHealer G0)).pixels.state q.1 q.2 =
                PixelState.grouped e.boundaryGroup ↔ Reach G0 p q)) := by
  have hinv0 : ScanInv G0 BOUNDARY_GROUP_FIRST [] (freshHealer G0) :=
    { rows_eq := rfl
      cols_eq := rfl
      next_ge := le_refl _
      frame := fun p hch => absurd rfl hch
      comp_closed := fun p q hch _ => absurd rfl hch
      regs := ⟨[], rfl, rfl, rfl, by simp⟩ }
  have hinv := scanFoldFull G0 BOUNDARY_GROUP_FIRST [] hclean
    (cellsRowMajor G0.rows G0.cols) (fun c hc => mem_cellsRowMajor.mp hc)
    (cellsRowMajor_sorted _ _) (freshHealer G0) hinv0
    (fun q hq => Or.inl (mem_cellsRowMajor.mpr hq.1))
  have hclear := (groupBasic_spec (freshHealer G0)).2.2
  have hfold : groupContiguousAdjacentPixels (freshHealer G0) =
      (cellsRowMajor G0.rows G0.cols).foldl scanStep (freshHealer G0) := rfl
  rw [hfold] at hclear ⊢
  obtain ⟨news, hr1, hr2, hr3, hr4⟩ := hinv.regs
  rw [List.nil_append] at hr1
  refine ⟨by rw [hr1]; exact hr3, by rw [hr1]; exact hr4, ?_⟩
  intro p hp
  have hne : ((cellsRowMajor G0.rows G0.cols).foldl scanStep
      (freshHealer G0)).pixels.state p.1 p.2 ≠ G0.state p.1 p.2 := by
    rw [hp.2]
    exact hclear p hp.1
  obtain ⟨-, -, gid, hge, hlt, h5⟩ := hinv.frame p hne
  have hgidmem : gid ∈ List.range' BOUNDARY_GROUP_FIRST news.length :=
    List.mem_range'_1.mpr ⟨hge, by omega⟩
  rw [← hr3] at hgidmem
  obtain ⟨e, he, heq⟩ := List.mem_map.mp hgidmem
  have hspec := hr4 e he
  have hep : Reach G0 e.pixel p := (hspec.members p).mp (by rw [h5, heq])
  refine ⟨e, ⟨by rw [hr1]; exact he, ?_⟩, ?_⟩
  · intro q
    exact (hspec.members q).trans
      ⟨fun h => hep.symm.trans h, fun h => hep.trans h⟩
  · rintro e' ⟨he', hchar'⟩
    have h1 := (hchar' p).mpr (Reach.refl hp)
    have hgid' : e'.boundaryGroup = gid :=
      PixelState.grouped.inj (h1.symm.trans h5)
    rw [hr1] at he'
    have hnodup : (news.map (fun e => e.boundaryGroup)).Nodup := by
      rw [hr3]
      exact List.nodup_range' _ _
    exact List.inj_on_of_nodup_map hnodup he' he (by rw [hgid', heq])

set_option maxRecDepth 8000 in
/-- Witness for C3 on the concrete 5×5 grid with two isolated Adjacent
cells, at the component of (0, 0). -/
theorem claim_C3_grouping_witness :
    (∀ (p : Int × Int) (gid : Nat),
      (Grid.mk 5 5 (fun r c =>
        if (r = 0 ∧ c = 0) ∨ (r = 0 ∧ c = 4) then PixelState.adjacent
        else PixelState.background)).state p.1 p.2 ≠ PixelState.grouped gid) ∧
      okCell (Grid.mk 5 5 (fun r c =>
        if (r = 0 ∧ c = 0) ∨ (r = 0 ∧ c = 4) then PixelState.adjacent
        else PixelState.background)) (0, 0) ∧
      ∃! e : RegionInfo,
        e ∈ (groupContiguousAdjacentPixels (freshHealer (Grid.mk 5 5 (fun r c =>
          if (r = 0 ∧ c = 0) ∨ (r = 0 ∧ c = 4) then PixelState.adjacent
          else PixelState.background)))).regions ∧
          ∀ q : Int × Int,
            ((groupContiguousAdjacentPixels (freshHealer (Grid.mk 5 5 (fun r c =>
                if (r = 0 ∧ c = 0) ∨ (r = 0 ∧ c = 4) then PixelState.adjacent
                else PixelState.background)))).pixels.state q.1 q.2 =
              PixelState.grouped e.boundaryGroup ↔
              Reach (Grid.mk 5 5 (fun r c =>
                if (r = 0 ∧ c = 0) ∨ (r = 0 ∧ c = 4) then PixelState.adjacent
                else PixelState.background)) (0, 0) q) := by
  have hclean : ∀ (p : Int × Int) (gid : Nat),
      (Grid.mk 5 5 (fun r c =>
        if (r = 0 ∧ c = 0) ∨ (r = 0 ∧ c = 4) then PixelState.adjacent
        else PixelState.background)).state p.1 p.2 ≠ PixelState.grouped gid := by
    intro p gid
    dsimp only
    split <;> simp
  refine ⟨hclean, by decide, ?_⟩
  exact (claim_C3_grouping _ hclean).2.2 (0, 0) (by decide)

end GridHealerSpec
